import Mathlib

/-!
Shallow embedding of `phf.cc` (dpressel/phf): a CHD-style perfect hash
function library.  Machine integers are modelled as `Nat` with explicit
`% 2^32` (for `uint32_t`) and `% 2^64` (for `size_t`) at every operation
where the C code can wrap.  The occupancy bitmaps `T` / `T_b` are modelled
as `Finset Nat` of the set bit indices (the C bitmap over a word array is
exactly a finite set of indices).
-/

set_option maxHeartbeats 1000000

/-- The macro `PHF_ROTL(x, y)` on `uint32_t`: `(x << y) | (x >> (32 - y))`, the left
shift wrapping at 32 bits. -/
def phf_rotl32 (x n : Nat) : Nat :=
  ((x <<< n) % 2 ^ 32) ||| (x >>> (32 - n))

/-- The function `phf_round32(uint32_t k1, uint32_t h1)`: one MurmurHash3_x86_32 round. -/
def phf_round32 (k1 h1 : Nat) : Nat :=
  let k1 := (k1 * 0xcc9e2d51) % 2 ^ 32
  let k1 := phf_rotl32 k1 15
  let k1 := (k1 * 0x1b873593) % 2 ^ 32
  let h1 := h1 ^^^ k1
  let h1 := phf_rotl32 h1 13
  (h1 * 5 + 0xe6546b64) % 2 ^ 32

/-- The function `phf_mix32(uint32_t h1)`: MurmurHash3 32-bit finalization mix. -/
def phf_mix32 (h1 : Nat) : Nat :=
  let h1 := h1 ^^^ (h1 >>> 16)
  let h1 := (h1 * 0x85ebca6b) % 2 ^ 32
  let h1 := h1 ^^^ (h1 >>> 13)
  let h1 := (h1 * 0xc2b2ae35) % 2 ^ 32
  h1 ^^^ (h1 >>> 16)

/-- The overload `phf_round32(const unsigned char *p, size_t n, uint32_t h1)`: the
byte-slice feeder.  Whole 4-byte groups are consumed big-endian
(`p[0]<<24 | p[1]<<16 | p[2]<<8 | p[3]`); then the `switch (n & 3)`
with fall-through builds one final word from the 3/2/1 remaining bytes
(written in the fall-through order of the C `switch`), and a remainder
of 0 contributes no final round. -/
def phf_round32_bytes : List Nat → Nat → Nat
  | b0 :: b1 :: b2 :: b3 :: rest, h1 =>
      phf_round32_bytes rest
        (phf_round32 ((b0 <<< 24) ||| (b1 <<< 16) ||| (b2 <<< 8) ||| b3) h1)
  | [b0, b1, b2], h1 => phf_round32 ((b2 <<< 8) ||| ((b1 <<< 16) ||| (b0 <<< 24))) h1
  | [b0, b1], h1 => phf_round32 ((b1 <<< 16) ||| (b0 <<< 24)) h1
  | [b0], h1 => phf_round32 (b0 <<< 24) h1
  | [], h1 => h1
termination_by l => l.length

/-- The `uint32_t` key feeder: one `phf_round32(k, h)` (the key parameter
has type `uint32_t`, hence the `% 2^32`). -/
def feed32 (k h : Nat) : Nat := phf_round32 (k % 2 ^ 32) h

/-- The `uint64_t` key feeder: low 32 bits first, then high 32 bits. -/
def feed64 (k h : Nat) : Nat :=
  phf_round32 ((k % 2 ^ 64) >>> 32) (phf_round32 (k % 2 ^ 32) h)

/-- The byte-slice (string) key feeder. -/
def feedBytes (k : List Nat) (h : Nat) : Nat := phf_round32_bytes k h

/-- Bucket hash `phf_g(k, seed) = mix32(feed(k, seed))`, generic over the key feeder. -/
def phf_g {K : Type} (feed : K → Nat → Nat) (k : K) (seed : Nat) : Nat :=
  phf_mix32 (feed k seed)

/-- Placement hash `phf_f(d, k, seed) = mix32(feed(k, round32(d, seed)))`. -/
def phf_f {K : Type} (feed : K → Nat → Nat) (d : Nat) (k : K) (seed : Nat) : Nat :=
  phf_mix32 (feed k (phf_round32 d seed))

/-- Modular reduction: bitmask `x & (n - 1)` in `nodiv` mode, otherwise `x % n`. -/
def modReduce (nodiv : Bool) (x n : Nat) : Nat :=
  if nodiv then x &&& (n - 1) else x % n

/-- The helper `phf_g_mod_r<nodiv>`: bucket index of a key. -/
def phf_g_mod_r {K : Type} (feed : K → Nat → Nat) (nodiv : Bool)
    (k : K) (seed r : Nat) : Nat :=
  modReduce nodiv (phf_g feed k seed) r

/-- The helper `phf_f_mod_m<nodiv>`: slot of a key under trial displacement `d`. -/
def phf_f_mod_m {K : Type} (feed : K → Nat → Nat) (nodiv : Bool)
    (d : Nat) (k : K) (seed m : Nat) : Nat :=
  modReduce nodiv (phf_f feed d k seed) m

/-- One `i |= i >> s` folding step of `phf_powerup`. -/
def phf_orShift (x s : Nat) : Nat := x ||| (x >>> s)

/-- The function `phf_powerup(size_t i)`: round up to the nearest power of two by
bit-or-shift folding (`i--`, six `i |= i >> s` steps for a 64-bit
`size_t`, `++i`).  `i--` and `++i` wrap at `2^64` exactly as the C
`size_t` arithmetic does (so `phf_powerup 0 = 0`, matching C). -/
def phf_powerup (i : Nat) : Nat :=
  (phf_orShift (phf_orShift (phf_orShift (phf_orShift (phf_orShift (phf_orShift
    ((i + (2 ^ 64 - 1)) % 2 ^ 64) 1) 2) 4) 8) 16) 32 + 1) % 2 ^ 64

/-- The built artifact `struct phf`: committed seed, `nodiv` flag,
bucket count `r`, table size `m`, displacement map `g` (a `uint32_t`
array of length `r`) and the maximal committed displacement `d_max`. -/
structure Phf (K : Type) where
  nodiv : Bool
  seed : Nat
  r : Nat
  m : Nat
  g : List Nat
  d_max : Nat
deriving DecidableEq

/-- Per-key record `phf_key<T>`: the key and its bucket index
`g = phf_g(k) mod r`.  The C record also carries `size_t *n`, a pointer
to the shared bucket-size counter `B_z[g]`; we re-express that pointer
as the bucket index and look the size up in a counter function `bz`
at comparison time (same counter values the C sort reads). -/
structure phf_key (K : Type) where
  k : K
  g : Nat
deriving DecidableEq

/-- The comparator `phf_key::cmp`, given the bucket-size counters `bz`.  Descending by
bucket size, then descending by bucket index; two records that tie on
both and carry equal keys are a duplicate: `assert` + `abort` (modelled
as `.error ()`).  The C guard `a != b` compares array slots, and the
sort only ever compares distinct slots, so it is always true here. -/
def phf_key.cmp {K : Type} [DecidableEq K] (bz : Nat → Nat) (a b : phf_key K) :
    Except Unit Ordering :=
  if bz b.g < bz a.g then .ok .lt
  else if bz a.g < bz b.g then .ok .gt
  else if b.g < a.g then .ok .lt
  else if a.g < b.g then .ok .gt
  else if a.k = b.k then .error ()
  else .ok .eq

/-- Insert one record into an already sorted run, comparing with the
(possibly aborting) comparator; `.lt` places the new record in front,
otherwise we keep walking.  Models the comparison-sort `qsort` performs. -/
def insertSorted {α : Type} (cmp : α → α → Except Unit Ordering) (x : α) :
    List α → Except Unit (List α)
  | [] => .ok [x]
  | y :: ys =>
      match cmp x y with
      | .error e => .error e
      | .ok .lt => .ok (x :: y :: ys)
      | .ok _ => (insertSorted cmp x ys).map (y :: ·)

/-- The sort of the record array (`qsort` with `phf_key::cmp`), as an
insertion sort; any duplicate-key detection aborts the whole sort. -/
def sortRecs {α : Type} (cmp : α → α → Except Unit Ordering) :
    List α → Except Unit (List α)
  | [] => .ok []
  | x :: xs =>
      match sortRecs cmp xs with
      | .error e => .error e
      | .ok ys => insertSorted cmp x ys

/-- Test `phf_isset`: bit `i` of a bitmap. -/
abbrev phf_isset (set : Finset Nat) (i : Nat) : Prop := i ∈ set

/-- Set a bit: `phf_setbit`. -/
def phf_setbit (set : Finset Nat) (i : Nat) : Finset Nat := insert i set

/-- Clear a bit: `phf_clrbit`. -/
def phf_clrbit (set : Finset Nat) (i : Nat) : Finset Nat := set.erase i

/-- One pass of the inner placement loop over the current bucket's keys
for a fixed trial displacement: each key's slot `f` is checked against
the global bitmap `T` and the trial bitmap `T_b`; on a conflict the pass
stops (returning the partially updated `T_b` and `false`), otherwise the
bit is set in `T_b` and the pass continues. -/
def trialPass {K : Type} (fm1 : K → Nat) (T : Finset Nat) :
    Finset Nat → List K → Finset Nat × Bool
  | Tb, [] => (Tb, true)
  | Tb, k :: ks =>
      let f := fm1 k
      if phf_isset T f ∨ phf_isset Tb f then (Tb, false)
      else trialPass fm1 T (phf_setbit Tb f) ks

/-- The `/* reset T_b[] */` loop: recompute `f` for every key of the
bucket and clear its bit in `T_b`. -/
def clearTb {K : Type} (fm1 : K → Nat) (Tb : Finset Nat) (bucket : List K) :
    Finset Nat :=
  bucket.foldl (fun s k => phf_clrbit s (fm1 k)) Tb

/-- The `/* commit to T[] */` loop: recompute `f` for every key of the
bucket and set its bit in `T`. -/
def commitT {K : Type} (fm1 : K → Nat) (T : Finset Nat) (bucket : List K) :
    Finset Nat :=
  bucket.foldl (fun s k => phf_setbit s (fm1 k)) T

/-- The `retry:` search for the current bucket: `d++`, run a trial pass;
on success return the found displacement and the updated `T_b`; on a
conflict clear this trial's `T_b` bits and retry with the next `d`.
The C search is unbounded (`goto retry`); we bound it with `fuel`
retries, `none` meaning the C program would still be searching. -/
def bucketSearch {K : Type} (fm : Nat → K → Nat) (T : Finset Nat)
    (bucket : List K) : Nat → Nat → Finset Nat → Option (Nat × Finset Nat)
  | 0, _, _ => none
  | fuel + 1, d, Tb =>
      let d1 := d + 1
      match trialPass (fm d1) T Tb bucket with
      | (Tb1, true) => some (d1, Tb1)
      | (Tb1, false) => bucketSearch fm T bucket fuel d1 (clearTb (fm d1) Tb1 bucket)

/-- Mutable state of the placement phase: the two bitmaps (which in C
share one allocation), the displacement map and `d_max`. -/
structure PlaceState where
  T : Finset Nat
  Tb : Finset Nat
  g : List Nat
  d_max : Nat

/-- Phase 3, the walk `for (; B_p < B_pe && *B_p->n > 0; B_p += *B_p->n)`:
the current bucket is the next `*B_p->n = bz B_p.g` records of the sorted
array; search its displacement, commit the slots to `T`, write
`g[B_p->g] = d` (a `uint32_t` store, hence `% 2^32`) and update `d_max`.
A sorted record with `bz = 0` stops the walk exactly as the loop
condition does.  The walk strictly advances through the array; `bound`
(instantiated with the array length by `placeLoop`) makes that progress
measure explicit as a structural recursion, and is never exhausted when
`bound` starts at the array length. -/
def placeLoopAux {K : Type} (fm : Nat → K → Nat) (bz : Nat → Nat) (fuel : Nat) :
    Nat → List (phf_key K) → PlaceState → Option PlaceState
  | _, [], st => some st
  | 0, _ :: _, _ => none
  | bound + 1, r0 :: rest, st =>
      if bz r0.g = 0 then some st
      else
        let bucket := (r0 :: rest.take (bz r0.g - 1)).map phf_key.k
        match bucketSearch fm st.T bucket fuel 0 st.Tb with
        | none => none
        | some (d, Tb1) =>
            placeLoopAux fm bz fuel bound (rest.drop (bz r0.g - 1))
              ⟨commitT (fm d) st.T bucket, Tb1,
               st.g.set r0.g (d % 2 ^ 32), max d st.d_max⟩

/-- Phase 3 entry point: the walk over the whole sorted record array. -/
def placeLoop {K : Type} (fm : Nat → K → Nat) (bz : Nat → Nat) (fuel : Nat)
    (recs : List (phf_key K)) (st : PlaceState) : Option PlaceState :=
  placeLoopAux fm bz fuel recs.length recs st

/-- Result of `phf_init`: a built `Phf`, the duplicate-key
`assert`/`abort`, or exhaustion of the (model-side) retry budget —
the C code would still be inside `goto retry` in that case.  The only
other C failure mode, `calloc` returning `NULL`, has no counterpart in
the model. -/
inductive InitResult (K : Type) where
  | ok (phf : Phf K)
  | dupAbort
  | outOfFuel
deriving DecidableEq

/-- Bucket count `r` as `phf_init` computes it, from `n1 = max(n,1)`, `l1 = max(l,1)`:
`phf_powerup(n1 / min(l1, n1))` in `nodiv` mode, else
`PHF_HOWMANY(n1, l1) = (n1 + (l1 - 1)) / l1` (the `size_t` addition
wraps at `2^64`). -/
def phf_init_r (nodiv : Bool) (n l : Nat) : Nat :=
  if nodiv then phf_powerup (max n 1 / min (max l 1) (max n 1))
  else ((max n 1 + (max l 1 - 1)) % 2 ^ 64) / max l 1

/-- Table size `m` as `phf_init` computes it, from `n1 = max(n,1)`,
`a1 = clamp(a,1,100)`: `phf_powerup((n1 * 100) / a1)` in `nodiv` mode,
else `(n1 * 100) / a1` (the `size_t` product wraps at `2^64`). -/
def phf_init_m (nodiv : Bool) (n a : Nat) : Nat :=
  if nodiv then phf_powerup ((max n 1 * 100) % 2 ^ 64 / max (min a 100) 1)
  else (max n 1 * 100) % 2 ^ 64 / max (min a 100) 1

/-- Phase 1 (partition): the per-key records `B_k`, each key with its
bucket index `phf_g_mod_r(k, seed, r)`. -/
def phf_recs {K : Type} (feed : K → Nat → Nat) (nodiv : Bool) (ks : List K)
    (seed r : Nat) : List (phf_key K) :=
  ks.map fun k => phf_key.mk k (phf_g_mod_r feed nodiv k seed r)

/-- The bucket-size counters `B_z` (as the counting function the sort
comparator reads through the records' `size_t *n` back-pointers). -/
def phf_bz {K : Type} (recs : List (phf_key K)) : Nat → Nat :=
  fun b => (recs.filter fun rc => rc.g = b).length

/-- The constructor `phf_init<nodiv, key_t>(phf, k[], n, l, a, seed)`: compute `r` and
`m`, partition each key into its bucket and count bucket sizes, sort the
records, and place bucket by bucket.
(The C `qsort` is called on `n1 = max(n,1)` records: for `n = 0` that one
record is the zero-filled slot `calloc` produced, no comparison is made
and the placement walk, bounded by `B_pe = &B_k[n]`, never reads it — so
sorting the `n` real records is the same function.) -/
def phf_init {K : Type} [DecidableEq K] (feed : K → Nat → Nat) (nodiv : Bool)
    (ks : List K) (l a seed fuel : Nat) : InitResult K :=
  let seed := seed % 2 ^ 32
  let r := phf_init_r nodiv ks.length l
  let m := phf_init_m nodiv ks.length a
  let recs := phf_recs feed nodiv ks seed r
  let bz := phf_bz recs
  match sortRecs (phf_key.cmp bz) recs with
  | .error _ => .dupAbort
  | .ok sorted =>
      match placeLoop (fun d k => phf_f_mod_m feed nodiv d k seed m) bz fuel
          sorted ⟨∅, ∅, List.replicate r 0, 0⟩ with
      | none => .outOfFuel
      | some st => .ok ⟨nodiv, seed, r, m, st.g, st.d_max⟩

/-- The evaluator `phf_hash<T>(phf, k)`: displacement lookup by bucket index, then the
placement hash reduced into `[0, m)`.  The C code duplicates the body for
the `nodiv`/division cases; `modReduce` carries that branch. -/
def phf_hash {K : Type} (feed : K → Nat → Nat) (phf : Phf K) (k : K) : Nat :=
  let d := phf.g.getD (phf_g_mod_r feed phf.nodiv k phf.seed phf.r) 0
  phf_f_mod_m feed phf.nodiv d k phf.seed phf.m

/-- The `r` of a successful build (observer used by concrete claims). -/
def initR {K : Type} : InitResult K → Option Nat
  | .ok phf => some phf.r
  | _ => none

/-- The `m` of a successful build. -/
def initM {K : Type} : InitResult K → Option Nat
  | .ok phf => some phf.m
  | _ => none

/-- Hash of one key through a successful build. -/
def initHashOf {K : Type} (feed : K → Nat → Nat) : InitResult K → K → Option Nat
  | .ok phf, k => some (phf_hash feed phf k)
  | _, _ => none

/-- Hashes of a key list through a successful build. -/
def initHashes {K : Type} (feed : K → Nat → Nat) (res : InitResult K)
    (ks : List K) : Option (List Nat) :=
  match res with
  | .ok phf => some (ks.map (phf_hash feed phf))
  | _ => none

/-! ### Basic arithmetic and bit lemmas -/

theorem shiftRight_le_self (a s : Nat) : a >>> s ≤ a := by
  rw [Nat.shiftRight_eq_div_pow]
  exact Nat.div_le_self _ _

theorem phf_orShift_lt {x : Nat} {n : Nat} (h : x < 2 ^ n) (s : Nat) :
    phf_orShift x s < 2 ^ n :=
  Nat.or_lt_two_pow h (lt_of_le_of_lt (shiftRight_le_self x s) h)

/-- For `1 ≤ i ≤ 2^63` the `size_t` wraparounds in `phf_powerup` are
inert and the result is positive. -/
theorem phf_powerup_pos {i : Nat} (h1 : 1 ≤ i) (h2 : i ≤ 2 ^ 63) :
    0 < phf_powerup i := by
  have e : (i + (2 ^ 64 - 1)) % 2 ^ 64 = i - 1 := by omega
  have hlt : i - 1 < 2 ^ 63 := by omega
  unfold phf_powerup
  rw [e]
  have hfold := phf_orShift_lt (phf_orShift_lt (phf_orShift_lt (phf_orShift_lt
    (phf_orShift_lt (phf_orShift_lt hlt 1) 2) 4) 8) 16) 32
  have : (2:Nat) ^ 63 < 2 ^ 64 := by norm_num
  omega

/-- Reduction `modReduce` lands strictly below a positive modulus in both modes
(`x % n < n`, and `x &&& (n-1) ≤ n-1 < n`). -/
theorem modReduce_lt (nodiv : Bool) (x : Nat) {n : Nat} (hn : 0 < n) :
    modReduce nodiv x n < n := by
  unfold modReduce
  split
  · exact lt_of_le_of_lt Nat.and_le_right (by omega)
  · exact Nat.mod_lt _ hn

/-- A MurmurHash3 round only depends on the key word modulo `2^32`
(the C parameter has type `uint32_t`). -/
theorem phf_round32_mod (d h : Nat) :
    phf_round32 (d % 2 ^ 32) h = phf_round32 d h := by
  simp [phf_round32, Nat.mod_mul_mod]

theorem phf_f_mod (feed : K → Nat → Nat) (nodiv : Bool) (d : Nat) (k : K)
    (seed m : Nat) :
    phf_f_mod_m feed nodiv (d % 2 ^ 32) k seed m = phf_f_mod_m feed nodiv d k seed m := by
  unfold phf_f_mod_m phf_f
  rw [phf_round32_mod]

/-- Bitwise-or is addition when the low `k` bits of `x` are clear and
`y` fits in them. -/
theorem lor_eq_add {x y k : Nat} (hx : x % 2 ^ k = 0) (hy : y < 2 ^ k) :
    x ||| y = x + y := by
  obtain ⟨c, hc⟩ := Nat.dvd_of_mod_eq_zero hx
  subst hc
  apply Nat.eq_of_testBit_eq
  intro i
  rw [Nat.testBit_or, Nat.testBit_to_div_mod, Nat.testBit_to_div_mod,
    Nat.testBit_to_div_mod]
  rcases Nat.lt_or_ge i k with hik | hik
  · have hsplit : (2:Nat) ^ k = 2 ^ i * (2 * 2 ^ (k - i - 1)) := by
      rw [← pow_succ']
      rw [← pow_add]
      congr 1
      omega
    have e1 : 2 ^ k * c / 2 ^ i = 2 * (2 ^ (k - i - 1) * c) := by
      rw [hsplit, Nat.mul_assoc, Nat.mul_div_cancel_left _ (Nat.pos_pow_of_pos i (by norm_num))]
      ring
    have e2 : (2 ^ k * c + y) / 2 ^ i = 2 * (2 ^ (k - i - 1) * c) + y / 2 ^ i := by
      rw [hsplit, Nat.mul_assoc, Nat.mul_comm (2 ^ i), ← Nat.mul_assoc]
      rw [Nat.mul_comm _ (2 ^ i), Nat.mul_add_div (Nat.pos_pow_of_pos i (by norm_num))]
    rw [e1, e2]
    simp [Nat.mul_add_mod, Nat.add_mul_mod_self_left]
  · have hy0 : y / 2 ^ k = 0 := Nat.div_eq_of_lt hy
    have hyi : y / 2 ^ i = 0 :=
      Nat.div_eq_of_lt (lt_of_lt_of_le hy (Nat.pow_le_pow_right (by norm_num) hik))
    have hsplit : (2:Nat) ^ i = 2 ^ k * 2 ^ (i - k) := by
      rw [← pow_add]
      congr 1
      omega
    have e1 : (2 ^ k * c + y) / 2 ^ i = c / 2 ^ (i - k) := by
      rw [hsplit, ← Nat.div_div_eq_div_mul,
        Nat.mul_add_div (Nat.pos_pow_of_pos k (by norm_num)), hy0, Nat.add_zero]
    have e2 : 2 ^ k * c / 2 ^ i = c / 2 ^ (i - k) := by
      rw [hsplit, ← Nat.div_div_eq_div_mul,
        Nat.mul_div_cancel_left _ (Nat.pos_pow_of_pos k (by norm_num))]
    rw [e1, e2, hyi]
    simp

/-! ### C4: the byte-slice feeder -/

theorem word2_eq {b0 b1 : Nat} (h0 : b0 < 256) (h1 : b1 < 256) :
    (b1 <<< 16) ||| (b0 <<< 24) = b0 * 2 ^ 24 + b1 * 2 ^ 16 := by
  have e1 : (b0 * 2 ^ 24) ||| (b1 * 2 ^ 16) = b0 * 2 ^ 24 + b1 * 2 ^ 16 :=
    lor_eq_add (k := 24) (Nat.mul_mod_left _ _) (by omega)
  rw [Nat.lor_comm (b1 <<< 16), Nat.shiftLeft_eq, Nat.shiftLeft_eq, e1]

theorem word3_eq {b0 b1 b2 : Nat} (h0 : b0 < 256) (h1 : b1 < 256)
    (h2 : b2 < 256) :
    (b2 <<< 8) ||| ((b1 <<< 16) ||| (b0 <<< 24))
      = b0 * 2 ^ 24 + b1 * 2 ^ 16 + b2 * 2 ^ 8 := by
  have e2 : (b0 * 2 ^ 24 + b1 * 2 ^ 16) ||| (b2 * 2 ^ 8)
      = b0 * 2 ^ 24 + b1 * 2 ^ 16 + b2 * 2 ^ 8 :=
    lor_eq_add (k := 16) (by omega) (by omega)
  rw [Nat.lor_comm (b2 <<< 8), word2_eq h0 h1, Nat.shiftLeft_eq, e2]

theorem word4_eq {b0 b1 b2 b3 : Nat} (h0 : b0 < 256) (h1 : b1 < 256)
    (h2 : b2 < 256) (h3 : b3 < 256) :
    (b0 <<< 24) ||| (b1 <<< 16) ||| (b2 <<< 8) ||| b3
      = b0 * 2 ^ 24 + b1 * 2 ^ 16 + b2 * 2 ^ 8 + b3 := by
  have e12 : (b0 * 2 ^ 24) ||| (b1 * 2 ^ 16) = b0 * 2 ^ 24 + b1 * 2 ^ 16 :=
    lor_eq_add (k := 24) (Nat.mul_mod_left _ _) (by omega)
  have e3 : (b0 * 2 ^ 24 + b1 * 2 ^ 16) ||| (b2 * 2 ^ 8)
      = b0 * 2 ^ 24 + b1 * 2 ^ 16 + b2 * 2 ^ 8 :=
    lor_eq_add (k := 16) (by omega) (by omega)
  have e4 : (b0 * 2 ^ 24 + b1 * 2 ^ 16 + b2 * 2 ^ 8) ||| b3
      = b0 * 2 ^ 24 + b1 * 2 ^ 16 + b2 * 2 ^ 8 + b3 :=
    lor_eq_add (k := 8) (by omega) (by omega)
  rw [Nat.shiftLeft_eq, Nat.shiftLeft_eq, Nat.shiftLeft_eq, e12, e3, e4]

/-- C4: the byte-slice feeder consumes whole 4-byte groups big-endian
(`p[0]` into the top byte, …, `p[3]` into the low byte); a remainder of
3 populates the three high bytes (`p[0]·2^24 + p[1]·2^16 + p[2]·2^8`),
a remainder of 2 the top two (`p[0]·2^24 + p[1]·2^16`), a remainder of 1
the top one (`p[0]·2^24`), each followed by one final `round32`; a
length-0 key contributes no rounds; and for the key `"abcd"` the first
`round32` word is `0x61626364`. -/
theorem claim_C4 :
    (∀ b0 b1 b2 b3 rest h1, b0 < 256 → b1 < 256 → b2 < 256 → b3 < 256 →
      phf_round32_bytes (b0 :: b1 :: b2 :: b3 :: rest) h1 =
        phf_round32_bytes rest
          (phf_round32 (b0 * 2 ^ 24 + b1 * 2 ^ 16 + b2 * 2 ^ 8 + b3) h1))
  ∧ (∀ b0 b1 b2 h1, b0 < 256 → b1 < 256 → b2 < 256 →
      phf_round32_bytes [b0, b1, b2] h1 =
        phf_round32 (b0 * 2 ^ 24 + b1 * 2 ^ 16 + b2 * 2 ^ 8) h1)
  ∧ (∀ b0 b1 h1, b0 < 256 → b1 < 256 →
      phf_round32_bytes [b0, b1] h1 = phf_round32 (b0 * 2 ^ 24 + b1 * 2 ^ 16) h1)
  ∧ (∀ b0 h1, b0 < 256 →
      phf_round32_bytes [b0] h1 = phf_round32 (b0 * 2 ^ 24) h1)
  ∧ (∀ h1, phf_round32_bytes [] h1 = h1)
  ∧ (∀ h1, phf_round32_bytes [0x61, 0x62, 0x63, 0x64] h1 =
      phf_round32 0x61626364 h1) := by
  refine ⟨?_, ?_, ?_, ?_, ?_, ?_⟩
  · intro b0 b1 b2 b3 rest h1 hb0 hb1 hb2 hb3
    rw [phf_round32_bytes, word4_eq hb0 hb1 hb2 hb3]
  · intro b0 b1 b2 h1 hb0 hb1 hb2
    rw [phf_round32_bytes, word3_eq hb0 hb1 hb2]
  · intro b0 b1 h1 hb0 hb1
    rw [phf_round32_bytes, word2_eq hb0 hb1]
  · intro b0 h1 hb0
    rw [phf_round32_bytes, Nat.shiftLeft_eq]
  · intro h1
    rw [phf_round32_bytes]
  · intro h1
    have hw : ((0x61:Nat) <<< 24) ||| (0x62 <<< 16) ||| (0x63 <<< 8) ||| 0x64
        = 0x61626364 := by decide
    rw [phf_round32_bytes, hw, phf_round32_bytes]

/-- Witness for C4 at concrete bytes. -/
theorem claim_C4_witness :
    phf_round32_bytes [1, 2, 3, 4, 5] 7 =
      phf_round32_bytes [5] (phf_round32 (1 * 2 ^ 24 + 2 * 2 ^ 16 + 3 * 2 ^ 8 + 4) 7)
  ∧ phf_round32_bytes [9, 8, 7] 3 = phf_round32 (9 * 2 ^ 24 + 8 * 2 ^ 16 + 7 * 2 ^ 8) 3
  ∧ phf_round32_bytes [9, 8] 3 = phf_round32 (9 * 2 ^ 24 + 8 * 2 ^ 16) 3
  ∧ phf_round32_bytes [9] 3 = phf_round32 (9 * 2 ^ 24) 3
  ∧ phf_round32_bytes [] 3 = 3
  ∧ phf_round32_bytes [0x61, 0x62, 0x63, 0x64] 11 = phf_round32 0x61626364 11 :=
  ⟨claim_C4.1 1 2 3 4 [5] 7 (by decide) (by decide) (by decide) (by decide),
   claim_C4.2.1 9 8 7 3 (by decide) (by decide) (by decide),
   claim_C4.2.2.1 9 8 3 (by decide) (by decide),
   claim_C4.2.2.2.1 9 3 (by decide),
   claim_C4.2.2.2.2.1 3,
   claim_C4.2.2.2.2.2 11⟩

/-! ### Sort correctness -/

/-- The order `phf_key::cmp` sorts by: descending bucket size, then
descending bucket index (records of the same bucket tie). -/
def phfLe {K : Type} (bz : Nat → Nat) (a b : phf_key K) : Prop :=
  bz b.g < bz a.g ∨ (bz a.g = bz b.g ∧ b.g ≤ a.g)

theorem phfLe_trans {K : Type} {bz : Nat → Nat} {a b c : phf_key K}
    (h1 : phfLe bz a b) (h2 : phfLe bz b c) : phfLe bz a c := by
  unfold phfLe at h1 h2 ⊢
  omega

theorem cmp_lt_strict {K : Type} [DecidableEq K] {bz : Nat → Nat} {a b : phf_key K}
    (h : phf_key.cmp bz a b = .ok .lt) :
    bz b.g < bz a.g ∨ (bz a.g = bz b.g ∧ b.g < a.g) := by
  unfold phf_key.cmp at h
  split_ifs at h <;> simp_all <;> omega

theorem cmp_walked {K : Type} [DecidableEq K] {bz : Nat → Nat} {a b : phf_key K}
    {o : Ordering} (h : phf_key.cmp bz a b = .ok o) (ho : o ≠ .lt) :
    phfLe bz b a := by
  unfold phf_key.cmp at h
  unfold phfLe
  split_ifs at h <;> simp_all <;> omega

theorem cmp_gt_strict {K : Type} [DecidableEq K] {bz : Nat → Nat} {a b : phf_key K}
    (h : phf_key.cmp bz a b = .ok .gt) :
    bz a.g < bz b.g ∨ (bz a.g = bz b.g ∧ a.g < b.g) := by
  unfold phf_key.cmp at h
  split_ifs at h <;> simp_all <;> omega

theorem cmp_eq_keys {K : Type} [DecidableEq K] {bz : Nat → Nat} {a b : phf_key K}
    (h : phf_key.cmp bz a b = .ok .eq) :
    bz a.g = bz b.g ∧ a.g = b.g ∧ a.k ≠ b.k := by
  unfold phf_key.cmp at h
  split_ifs at h <;> simp_all <;> omega

theorem insertSorted_perm {α : Type} {cmp : α → α → Except Unit Ordering}
    {x : α} : ∀ {l l2 : List α}, insertSorted cmp x l = .ok l2 → l2.Perm (x :: l)
  | [], l2, h => by
      unfold insertSorted at h
      cases h
      exact List.Perm.refl _
  | y :: ys, l2, h => by
      unfold insertSorted at h
      rcases hc : cmp x y with e | o
      · rw [hc] at h; cases h
      · rw [hc] at h
        cases o with
        | lt =>
            cases h
            exact List.Perm.refl _
        | eq =>
            rcases hi : insertSorted cmp x ys with e2 | zs
            · rw [hi] at h; cases h
            · rw [hi] at h
              cases h
              exact (List.Perm.cons y (insertSorted_perm hi)).trans
                (List.Perm.swap x y ys)
        | gt =>
            rcases hi : insertSorted cmp x ys with e2 | zs
            · rw [hi] at h; cases h
            · rw [hi] at h
              cases h
              exact (List.Perm.cons y (insertSorted_perm hi)).trans
                (List.Perm.swap x y ys)

theorem sortRecs_perm {α : Type} {cmp : α → α → Except Unit Ordering} :
    ∀ {l l2 : List α}, sortRecs cmp l = .ok l2 → l2.Perm l
  | [], l2, h => by
      unfold sortRecs at h
      cases h
      exact List.Perm.refl _
  | x :: xs, l2, h => by
      unfold sortRecs at h
      rcases hs : sortRecs cmp xs with e | ys
      · rw [hs] at h; cases h
      · rw [hs] at h
        exact (insertSorted_perm h).trans (List.Perm.cons x (sortRecs_perm hs))

theorem insertSorted_sorted {K : Type} [DecidableEq K] {bz : Nat → Nat}
    {x : phf_key K} :
    ∀ {l l2 : List (phf_key K)}, l.Pairwise (phfLe bz) →
      insertSorted (phf_key.cmp bz) x l = .ok l2 → l2.Pairwise (phfLe bz)
  | [], l2, _, h => by
      unfold insertSorted at h
      cases h
      exact List.pairwise_singleton _ _
  | y :: ys, l2, hp, h => by
      unfold insertSorted at h
      rcases hc : phf_key.cmp bz x y with e | o
      · rw [hc] at h; cases h
      · rw [hc] at h
        rcases List.pairwise_cons.mp hp with ⟨hy, hys⟩
        cases o with
        | lt =>
            cases h
            refine List.pairwise_cons.mpr ⟨?_, hp⟩
            intro z hz
            have hxy : phfLe bz x y := by
              rcases cmp_lt_strict hc with h1 | h1
              · exact Or.inl h1
              · exact Or.inr ⟨h1.1, Nat.le_of_lt h1.2⟩
            rcases List.mem_cons.mp hz with rfl | hz2
            · exact hxy
            · exact phfLe_trans hxy (hy z hz2)
        | eq =>
            rcases hi : insertSorted (phf_key.cmp bz) x ys with e2 | zs
            · rw [hi] at h; cases h
            · rw [hi] at h
              cases h
              refine List.pairwise_cons.mpr ⟨?_, insertSorted_sorted hys hi⟩
              intro z hz
              have hz2 : z ∈ x :: ys := (insertSorted_perm hi).mem_iff.mp hz
              rcases List.mem_cons.mp hz2 with rfl | hz3
              · exact cmp_walked hc (by simp)
              · exact hy z hz3
        | gt =>
            rcases hi : insertSorted (phf_key.cmp bz) x ys with e2 | zs
            · rw [hi] at h; cases h
            · rw [hi] at h
              cases h
              refine List.pairwise_cons.mpr ⟨?_, insertSorted_sorted hys hi⟩
              intro z hz
              have hz2 : z ∈ x :: ys := (insertSorted_perm hi).mem_iff.mp hz
              rcases List.mem_cons.mp hz2 with rfl | hz3
              · exact cmp_walked hc (by simp)
              · exact hy z hz3

theorem sortRecs_sorted {K : Type} [DecidableEq K] {bz : Nat → Nat} :
    ∀ {l l2 : List (phf_key K)}, sortRecs (phf_key.cmp bz) l = .ok l2 →
      l2.Pairwise (phfLe bz)
  | [], l2, h => by
      unfold sortRecs at h
      cases h
      exact List.Pairwise.nil
  | x :: xs, l2, h => by
      unfold sortRecs at h
      rcases hs : sortRecs (phf_key.cmp bz) xs with e | ys
      · rw [hs] at h; cases h
      · rw [hs] at h
        exact insertSorted_sorted (sortRecs_sorted hs) h

/-- If the insertion succeeds, the inserted record was compared against
(and found different in key from) every record of the sorted run that
ties with it on bucket size and bucket index. -/
theorem insertSorted_dup {K : Type} [DecidableEq K] {bz : Nat → Nat}
    {x : phf_key K} :
    ∀ {l l2 : List (phf_key K)}, l.Pairwise (phfLe bz) →
      insertSorted (phf_key.cmp bz) x l = .ok l2 →
      ∀ z ∈ l, bz z.g = bz x.g → z.g = x.g → z.k ≠ x.k
  | [], _, _, _ => by
      intro z hz
      cases hz
  | y :: ys, l2, hp, h => by
      intro z hz hbz hg
      unfold insertSorted at h
      rcases List.pairwise_cons.mp hp with ⟨hy, hys⟩
      rcases hc : phf_key.cmp bz x y with e | o
      · rw [hc] at h; cases h
      · rw [hc] at h
        cases o with
        | lt =>
            exfalso
            rcases List.mem_cons.mp hz with rfl | hz2
            · rcases cmp_lt_strict hc with h1 | h1 <;> omega
            · have hyz := hy z hz2
              unfold phfLe at hyz
              rcases cmp_lt_strict hc with h1 | h1 <;> omega
        | eq =>
            rcases hi : insertSorted (phf_key.cmp bz) x ys with e2 | zs
            · rw [hi] at h; cases h
            · rcases List.mem_cons.mp hz with rfl | hz2
              · have := cmp_eq_keys hc
                intro hk
                exact this.2.2 hk.symm
              · exact insertSorted_dup hys hi z hz2 hbz hg
        | gt =>
            rcases hi : insertSorted (phf_key.cmp bz) x ys with e2 | zs
            · rw [hi] at h; cases h
            · rcases List.mem_cons.mp hz with rfl | hz2
              · exfalso
                rcases cmp_gt_strict hc with h1 | h1 <;> omega
              · exact insertSorted_dup hys hi z hz2 hbz hg

/-- A successful sort implies the record list had no equal records:
every pair of tied records was fed to the comparator, which aborts on
equal keys. -/
theorem sortRecs_nodup {K : Type} [DecidableEq K] {bz : Nat → Nat} :
    ∀ {l l2 : List (phf_key K)}, sortRecs (phf_key.cmp bz) l = .ok l2 → l.Nodup
  | [], _, _ => List.nodup_nil
  | x :: xs, l2, h => by
      unfold sortRecs at h
      rcases hs : sortRecs (phf_key.cmp bz) xs with e | ys
      · rw [hs] at h; cases h
      · rw [hs] at h
        refine List.nodup_cons.mpr ⟨?_, sortRecs_nodup hs⟩
        intro hmem
        have hmem2 : x ∈ ys := (sortRecs_perm hs).mem_iff.mpr hmem
        exact insertSorted_dup (sortRecs_sorted hs) h x hmem2 rfl rfl rfl

/-! ### Trial, reset and commit lemmas -/

theorem trialPass_cons {K : Type} (fm1 : K → Nat) (T Tb : Finset Nat)
    (k : K) (ks : List K) :
    trialPass fm1 T Tb (k :: ks) =
      if fm1 k ∈ T ∨ fm1 k ∈ Tb then (Tb, false)
      else trialPass fm1 T (phf_setbit Tb (fm1 k)) ks := rfl

theorem clearTb_cons {K : Type} (fm1 : K → Nat) (Tb : Finset Nat)
    (k : K) (ks : List K) :
    clearTb fm1 Tb (k :: ks) = clearTb fm1 (phf_clrbit Tb (fm1 k)) ks := rfl

theorem commitT_cons {K : Type} (fm1 : K → Nat) (T : Finset Nat)
    (k : K) (ks : List K) :
    commitT fm1 T (k :: ks) = commitT fm1 (phf_setbit T (fm1 k)) ks := rfl

theorem trialPass_mem {K : Type} (fm1 : K → Nat) (T : Finset Nat) :
    ∀ (bucket : List K) {Tb Tb' : Finset Nat} {ok : Bool},
      trialPass fm1 T Tb bucket = (Tb', ok) →
      ∀ x ∈ Tb', x ∈ Tb ∨ ∃ k ∈ bucket, fm1 k = x
  | [], Tb, Tb', ok, h => by
      unfold trialPass at h
      cases h
      intro x hx
      exact Or.inl hx
  | k :: ks, Tb, Tb', ok, h => by
      rw [trialPass_cons] at h
      split at h
      · cases h
        intro x hx
        exact Or.inl hx
      · intro x hx
        rcases trialPass_mem fm1 T ks h x hx with hin | ⟨k2, hk2, he⟩
        · rcases Finset.mem_insert.mp hin with rfl | hin2
          · exact Or.inr ⟨k, List.mem_cons_self k ks, rfl⟩
          · exact Or.inl hin2
        · exact Or.inr ⟨k2, List.mem_cons_of_mem k hk2, he⟩

theorem trialPass_ok {K : Type} (fm1 : K → Nat) (T : Finset Nat) :
    ∀ (bucket : List K) {Tb Tb' : Finset Nat},
      trialPass fm1 T Tb bucket = (Tb', true) →
      (∀ k ∈ bucket, fm1 k ∉ T) ∧ (∀ k ∈ bucket, fm1 k ∉ Tb) ∧
        bucket.Pairwise (fun a b => fm1 a ≠ fm1 b) ∧
        (∀ x, x ∈ Tb' ↔ x ∈ Tb ∨ ∃ k ∈ bucket, fm1 k = x)
  | [], Tb, Tb', h => by
      unfold trialPass at h
      cases h
      refine ⟨by simp, by simp, List.Pairwise.nil, ?_⟩
      intro x
      simp
  | k :: ks, Tb, Tb', h => by
      rw [trialPass_cons] at h
      split at h
      · cases h
      · rename_i hcond
        push_neg at hcond
        obtain ⟨h1, h2, h3, h4⟩ := trialPass_ok fm1 T ks h
        refine ⟨?_, ?_, ?_, ?_⟩
        · intro k2 hk2
          rcases List.mem_cons.mp hk2 with rfl | hk3
          · exact hcond.1
          · exact h1 k2 hk3
        · intro k2 hk2
          rcases List.mem_cons.mp hk2 with rfl | hk3
          · exact hcond.2
          · intro hin
            exact h2 k2 hk3 (Finset.mem_insert_of_mem hin)
        · refine List.pairwise_cons.mpr ⟨?_, h3⟩
          intro b hb he
          exact h2 b hb (by rw [← he]; exact Finset.mem_insert_self _ _)
        · intro x
          rw [h4 x]
          unfold phf_setbit
          rw [Finset.mem_insert]
          constructor
          · rintro (⟨rfl | hin⟩ | ⟨k2, hk2, he⟩)
            · exact Or.inr ⟨k, List.mem_cons_self k ks, rfl⟩
            · exact Or.inl (by assumption)
            · exact Or.inr ⟨k2, List.mem_cons_of_mem k hk2, he⟩
          · rintro (hin | ⟨k2, hk2, he⟩)
            · exact Or.inl (Or.inr hin)
            · rcases List.mem_cons.mp hk2 with rfl | hk3
              · exact Or.inl (Or.inl he.symm)
              · exact Or.inr ⟨k2, hk3, he⟩

theorem clearTb_mem {K : Type} (fm1 : K → Nat) :
    ∀ (bucket : List K) (Tb : Finset Nat) (x : Nat),
      x ∈ clearTb fm1 Tb bucket ↔ x ∈ Tb ∧ ∀ k ∈ bucket, fm1 k ≠ x
  | [], Tb, x => by
      unfold clearTb
      simp
  | k :: ks, Tb, x => by
      rw [clearTb_cons, clearTb_mem fm1 ks]
      unfold phf_clrbit
      rw [Finset.mem_erase]
      constructor
      · rintro ⟨⟨hne, hin⟩, hall⟩
        refine ⟨hin, ?_⟩
        intro k2 hk2
        rcases List.mem_cons.mp hk2 with rfl | hk3
        · exact fun he => hne he.symm
        · exact hall k2 hk3
      · rintro ⟨hin, hall⟩
        refine ⟨⟨fun he => hall k (List.mem_cons_self k ks) he.symm, hin⟩, ?_⟩
        intro k2 hk2
        exact hall k2 (List.mem_cons_of_mem k hk2)

theorem commitT_mem {K : Type} (fm1 : K → Nat) :
    ∀ (bucket : List K) (T : Finset Nat) (x : Nat),
      x ∈ commitT fm1 T bucket ↔ x ∈ T ∨ ∃ k ∈ bucket, fm1 k = x
  | [], T, x => by
      unfold commitT
      simp
  | k :: ks, T, x => by
      rw [commitT_cons, commitT_mem fm1 ks]
      unfold phf_setbit
      rw [Finset.mem_insert]
      constructor
      · rintro (⟨rfl | hin⟩ | ⟨k2, hk2, he⟩)
        · exact Or.inr ⟨k, List.mem_cons_self k ks, rfl⟩
        · exact Or.inl (by assumption)
        · exact Or.inr ⟨k2, List.mem_cons_of_mem k hk2, he⟩
      · rintro (hin | ⟨k2, hk2, he⟩)
        · exact Or.inl (Or.inr hin)
        · rcases List.mem_cons.mp hk2 with rfl | hk3
          · exact Or.inl (Or.inl he.symm)
          · exact Or.inr ⟨k2, hk3, he⟩

/-- C5 kernel: after a failed trial, the reset loop clears every `T_b`
bit this trial set, restoring `T_b ⊆ T`. -/
theorem clearTb_reset {K : Type} {fm1 : K → Nat} {T Tb Tb' : Finset Nat}
    {bucket : List K} (hsub : Tb ⊆ T)
    (h : trialPass fm1 T Tb bucket = (Tb', false)) :
    clearTb fm1 Tb' bucket ⊆ T := by
  intro x hx
  rcases (clearTb_mem fm1 bucket Tb' x).mp hx with ⟨hin, hclean⟩
  rcases trialPass_mem fm1 T bucket h x hin with hold | ⟨k, hk, he⟩
  · exact hsub hold
  · exact absurd he (hclean k hk)

theorem bucketSearch_succ {K : Type} (fm : Nat → K → Nat) (T : Finset Nat)
    (bucket : List K) (fuel d0 : Nat) (Tb : Finset Nat) :
    bucketSearch fm T bucket (fuel + 1) d0 Tb =
      match trialPass (fm (d0 + 1)) T Tb bucket with
      | (Tb1, true) => some (d0 + 1, Tb1)
      | (Tb1, false) =>
          bucketSearch fm T bucket fuel (d0 + 1) (clearTb (fm (d0 + 1)) Tb1 bucket) := rfl

theorem bucketSearch_ok1 {K : Type} {fm : Nat → K → Nat} {T : Finset Nat}
    {bucket : List K} :
    ∀ {fuel d0 : Nat} {Tb : Finset Nat} {d : Nat} {Tb' : Finset Nat},
      bucketSearch fm T bucket fuel d0 Tb = some (d, Tb') →
      (∀ k ∈ bucket, fm d k ∉ T) ∧ bucket.Pairwise (fun a b => fm d a ≠ fm d b)
  | 0, d0, Tb, d, Tb', h => by cases h
  | fuel + 1, d0, Tb, d, Tb', h => by
      rw [bucketSearch_succ] at h
      rcases ht : trialPass (fm (d0 + 1)) T Tb bucket with ⟨Tb1, ok⟩
      rw [ht] at h
      cases ok with
      | true =>
          cases h
          obtain ⟨h1, _, h3, _⟩ := trialPass_ok _ T bucket ht
          exact ⟨h1, h3⟩
      | false => exact bucketSearch_ok1 h

theorem bucketSearch_ok2 {K : Type} {fm : Nat → K → Nat} {T : Finset Nat}
    {bucket : List K} :
    ∀ {fuel d0 : Nat} {Tb : Finset Nat} {d : Nat} {Tb' : Finset Nat},
      Tb ⊆ T → bucketSearch fm T bucket fuel d0 Tb = some (d, Tb') →
      ∀ x ∈ Tb', x ∈ T ∨ ∃ k ∈ bucket, fm d k = x
  | 0, d0, Tb, d, Tb', _, h => by cases h
  | fuel + 1, d0, Tb, d, Tb', hsub, h => by
      rw [bucketSearch_succ] at h
      rcases ht : trialPass (fm (d0 + 1)) T Tb bucket with ⟨Tb1, ok⟩
      rw [ht] at h
      cases ok with
      | true =>
          cases h
          intro x hx
          obtain ⟨_, _, _, h4⟩ := trialPass_ok _ T bucket ht
          rcases (h4 x).mp hx with hin | hs
          · exact Or.inl (hsub hin)
          · exact Or.inr hs
      | false => exact bucketSearch_ok2 (clearTb_reset hsub ht) h

/-! ### Placement-loop invariants -/

theorem getD_set_self {l : List Nat} {i : Nat} (v : Nat) (h : i < l.length) :
    (l.set i v).getD i 0 = v := by
  rw [List.getD_eq_getElem?_getD, List.getElem?_set_self (by simpa using h)]
  rfl

theorem getD_set_ne {l : List Nat} {i j : Nat} (v : Nat) (h : i ≠ j) :
    (l.set i v).getD j 0 = l.getD j 0 := by
  rw [List.getD_eq_getElem?_getD, List.getElem?_set_ne h, ← List.getD_eq_getElem?_getD]

theorem dropWhile_head_false {α : Type} {p : α → Bool} :
    ∀ {l : List α} {y : α} {ys : List α}, l.dropWhile p = y :: ys → p y = false
  | [], y, ys, h => by cases h
  | a :: as, y, ys, h => by
      rw [List.dropWhile_cons] at h
      split at h
      · exact dropWhile_head_false h
      · cases h
        rename_i hpa
        simpa using hpa


/-- In a comparator-sorted record array whose leading bucket has exactly
`bz r0.g` members, those members are exactly the next `bz r0.g` records
(the run the placement walk takes), no record of that bucket appears
later, and dropping the run leaves every other bucket's records intact. -/
theorem head_block {K : Type} {bz : Nat → Nat} {r0 : phf_key K}
    {rest : List (phf_key K)}
    (hsorted : (r0 :: rest).Pairwise (phfLe bz))
    (hcount : ((r0 :: rest).filter (fun rc => rc.g = r0.g)).length = bz r0.g) :
    (∀ x ∈ r0 :: rest.take (bz r0.g - 1), x.g = r0.g) ∧
    (∀ x ∈ rest.drop (bz r0.g - 1), x.g ≠ r0.g) ∧
    (r0 :: rest = (r0 :: rest.take (bz r0.g - 1)) ++ rest.drop (bz r0.g - 1)) ∧
    (∀ b, b ≠ r0.g →
      (r0 :: rest).filter (fun rc => rc.g = b)
        = (rest.drop (bz r0.g - 1)).filter (fun rc => rc.g = b)) := by
  have hpr0 : (fun rc : phf_key K => decide (rc.g = r0.g)) r0 = true := by simp
  have hsplit := List.takeWhile_append_dropWhile
    (fun rc : phf_key K => decide (rc.g = r0.g)) (r0 :: rest)
  have hpreP : ∀ x ∈ (r0 :: rest).takeWhile (fun rc => decide (rc.g = r0.g)),
      x.g = r0.g := by
    intro x hx
    exact of_decide_eq_true
      (List.mem_takeWhile_imp (p := fun rc : phf_key K => decide (rc.g = r0.g)) hx)
  have hsufP : ∀ x ∈ (r0 :: rest).dropWhile (fun rc => decide (rc.g = r0.g)),
      x.g ≠ r0.g := by
    intro x hx
    rcases hcs : (r0 :: rest).dropWhile (fun rc => decide (rc.g = r0.g))
      with _ | ⟨h, tail⟩
    · rw [hcs] at hx; cases hx
    · have hh := dropWhile_head_false hcs
      have hhne : h.g ≠ r0.g := by simpa using hh
      have hsufSorted : (h :: tail).Pairwise (phfLe bz) := by
        rw [← hcs]
        exact List.Pairwise.sublist (List.dropWhile_sublist _) hsorted
      have hhrest : h ∈ rest := by
        have : h ∈ (r0 :: rest).dropWhile (fun rc => decide (rc.g = r0.g)) := by
          rw [hcs]; exact List.mem_cons_self _ _
        have hmem : h ∈ r0 :: rest := (List.dropWhile_sublist _).mem this
        rcases List.mem_cons.mp hmem with rfl | hm
        · exact absurd rfl hhne
        · exact hm
      have hr0h : phfLe bz r0 h := (List.pairwise_cons.mp hsorted).1 h hhrest
      rw [hcs] at hx
      rcases List.mem_cons.mp hx with rfl | hx2
      · exact hhne
      · have hhx : phfLe bz h x := (List.pairwise_cons.mp hsufSorted).1 x hx2
        intro hxg
        have hbzx : bz x.g = bz r0.g := by rw [hxg]
        unfold phfLe at hr0h hhx
        omega
  have hfpre : ((r0 :: rest).takeWhile (fun rc => decide (rc.g = r0.g))).filter
      (fun rc => rc.g = r0.g)
      = (r0 :: rest).takeWhile (fun rc => decide (rc.g = r0.g)) := by
    rw [List.filter_eq_self]
    intro a ha
    simpa using hpreP a ha
  have hfsuf : ((r0 :: rest).dropWhile (fun rc => decide (rc.g = r0.g))).filter
      (fun rc => rc.g = r0.g) = [] := by
    rw [List.filter_eq_nil_iff]
    intro a ha
    simpa using hsufP a ha
  have hfeq : (r0 :: rest).filter (fun rc => rc.g = r0.g)
      = (r0 :: rest).takeWhile (fun rc => decide (rc.g = r0.g)) := by
    conv_lhs => rw [← hsplit]
    rw [List.filter_append, hfpre, hfsuf, List.append_nil]
  have hlen : ((r0 :: rest).takeWhile (fun rc => decide (rc.g = r0.g))).length
      = bz r0.g := by
    rw [← hfeq]
    exact hcount
  have hpos : 0 < bz r0.g := by
    rw [← hcount]
    have : r0 ∈ (r0 :: rest).filter (fun rc => rc.g = r0.g) :=
      List.mem_filter.mpr ⟨List.mem_cons_self _ _, by simp⟩
    exact List.length_pos_of_mem this
  have htake : (r0 :: rest).takeWhile (fun rc => decide (rc.g = r0.g))
      = r0 :: rest.take (bz r0.g - 1) := by
    have h1 : (r0 :: rest).takeWhile (fun rc => decide (rc.g = r0.g))
        = (r0 :: rest).take (bz r0.g) := by
      conv_rhs => rw [← hsplit]
      rw [← hlen, List.take_left]
    rw [h1]
    obtain ⟨t2, ht2⟩ : ∃ t2, bz r0.g = t2 + 1 := ⟨bz r0.g - 1, by omega⟩
    rw [ht2]
    simp [List.take_succ_cons]
  have hdrop : (r0 :: rest).dropWhile (fun rc => decide (rc.g = r0.g))
      = rest.drop (bz r0.g - 1) := by
    have h1 : (r0 :: rest).dropWhile (fun rc => decide (rc.g = r0.g))
        = (r0 :: rest).drop (bz r0.g) := by
      conv_rhs => rw [← hsplit]
      rw [← hlen, List.drop_left]
    rw [h1]
    obtain ⟨t2, ht2⟩ : ∃ t2, bz r0.g = t2 + 1 := ⟨bz r0.g - 1, by omega⟩
    rw [ht2]
    simp [List.drop_succ_cons]
  refine ⟨?_, ?_, ?_, ?_⟩
  · intro x hx
    exact hpreP x (by rw [htake]; exact hx)
  · intro x hx
    exact hsufP x (by rw [hdrop]; exact hx)
  · conv_lhs => rw [← hsplit]
    rw [htake, hdrop]
  · intro b hb
    conv_lhs => rw [← hsplit]
    rw [List.filter_append, htake, hdrop]
    have : (r0 :: rest.take (bz r0.g - 1)).filter (fun rc => rc.g = b) = [] := by
      rw [List.filter_eq_nil_iff]
      intro a ha
      have hag : a.g = r0.g := hpreP a (by rw [htake]; exact ha)
      simp [hag]
      omega
    rw [this, List.nil_append]

theorem placeLoopAux_cons {K : Type} (fm : Nat → K → Nat) (bz : Nat → Nat)
    (fuel bound : Nat) (r0 : phf_key K) (rest : List (phf_key K))
    (st : PlaceState) :
    placeLoopAux fm bz fuel (bound + 1) (r0 :: rest) st =
      if bz r0.g = 0 then some st
      else
        match bucketSearch fm st.T ((r0 :: rest.take (bz r0.g - 1)).map phf_key.k)
            fuel 0 st.Tb with
        | none => none
        | some (d, Tb1) =>
            placeLoopAux fm bz fuel bound (rest.drop (bz r0.g - 1))
              ⟨commitT (fm d) st.T ((r0 :: rest.take (bz r0.g - 1)).map phf_key.k),
               Tb1, st.g.set r0.g (d % 2 ^ 32), max d st.d_max⟩ := rfl

/-- Main placement invariant: a successful walk places every remaining
record's key at the slot its bucket's committed displacement gives it,
those slots are fresh (not previously in `T`) and pairwise distinct for
distinct keys, and displacement entries of untouched buckets are
unchanged. -/
theorem placeLoopAux_spec {K : Type} {fm : Nat → K → Nat} {bz : Nat → Nat}
    {fuel : Nat} (hfm : ∀ d k, fm (d % 2 ^ 32) k = fm d k) :
    ∀ (bound : Nat) (rem : List (phf_key K)) (st st' : PlaceState),
      placeLoopAux fm bz fuel bound rem st = some st' →
      rem.Pairwise (phfLe bz) →
      (∀ rec ∈ rem, (rem.filter (fun rc => rc.g = rec.g)).length = bz rec.g) →
      (∀ rec ∈ rem, rec.g < st.g.length) →
      (∀ x ∈ st.T, x ∈ st'.T) ∧
      st'.g.length = st.g.length ∧
      (∀ b, (∀ rec ∈ rem, rec.g ≠ b) → st'.g.getD b 0 = st.g.getD b 0) ∧
      (∀ rec ∈ rem,
        fm (st'.g.getD rec.g 0) rec.k ∈ st'.T ∧
          fm (st'.g.getD rec.g 0) rec.k ∉ st.T) ∧
      (∀ r1 ∈ rem, ∀ r2 ∈ rem, r1.k ≠ r2.k →
        fm (st'.g.getD r1.g 0) r1.k ≠ fm (st'.g.getD r2.g 0) r2.k) := by
  intro bound
  induction bound with
  | zero =>
      intro rem st st' h hsort hcount hglen
      match rem with
      | [] =>
          unfold placeLoopAux at h
          cases h
          refine ⟨fun x hx => hx, rfl, fun b _ => rfl, ?_, ?_⟩
          · intro rec hrec
            cases hrec
          · intro r1 h1
            cases h1
      | r0 :: rest =>
          unfold placeLoopAux at h
          cases h
  | succ bound ih =>
      intro rem st st' h hsort hcount hglen
      match rem with
      | [] =>
          unfold placeLoopAux at h
          cases h
          refine ⟨fun x hx => hx, rfl, fun b _ => rfl, ?_, ?_⟩
          · intro rec hrec
            cases hrec
          · intro r1 h1
            cases h1
      | r0 :: rest =>
          rw [placeLoopAux_cons] at h
          split at h
          · rename_i hz
            exfalso
            have hc0 := hcount r0 (List.mem_cons_self _ _)
            have : r0 ∈ (r0 :: rest).filter (fun rc => rc.g = r0.g) :=
              List.mem_filter.mpr ⟨List.mem_cons_self _ _, by simp⟩
            have := List.length_pos_of_mem this
            omega
          · rename_i hz
            obtain ⟨hb1, hb2, hb3, hb4⟩ :=
              head_block hsort (hcount r0 (List.mem_cons_self _ _))
            rcases hbs : bucketSearch fm st.T
                ((r0 :: rest.take (bz r0.g - 1)).map phf_key.k) fuel 0 st.Tb
              with _ | ⟨d, Tb1⟩
            · rw [hbs] at h
              exact Option.noConfusion h
            · rw [hbs] at h
              have h2 : placeLoopAux fm bz fuel bound (rest.drop (bz r0.g - 1))
                  ⟨commitT (fm d) st.T
                     ((r0 :: rest.take (bz r0.g - 1)).map phf_key.k),
                   Tb1, st.g.set r0.g (d % 2 ^ 32), max d st.d_max⟩ = some st' := h
              obtain ⟨hfresh, hpair⟩ := bucketSearch_ok1 hbs
              have hmemrem : ∀ rec ∈ rest.drop (bz r0.g - 1), rec ∈ r0 :: rest := by
                intro rec hrec
                rw [hb3]
                exact List.mem_append.mpr (Or.inr hrec)
              have hsortd : (rest.drop (bz r0.g - 1)).Pairwise (phfLe bz) := by
                refine List.Pairwise.sublist ?_ hsort
                exact List.Sublist.trans (List.drop_sublist _ _)
                  (List.sublist_cons_self _ _)
              have hcountd : ∀ rec ∈ rest.drop (bz r0.g - 1),
                  ((rest.drop (bz r0.g - 1)).filter
                    (fun rc => rc.g = rec.g)).length = bz rec.g := by
                intro rec hrec
                rw [← hb4 rec.g (hb2 rec hrec)]
                exact hcount rec (hmemrem rec hrec)
              have hglend : ∀ rec ∈ rest.drop (bz r0.g - 1),
                  rec.g < (st.g.set r0.g (d % 2 ^ 32)).length := by
                intro rec hrec
                rw [List.length_set]
                exact hglen rec (hmemrem rec hrec)
              obtain ⟨i1, i2, i3, i4, i5⟩ :=
                ih (rest.drop (bz r0.g - 1)) _ st' h2 hsortd hcountd hglend
              have hsubT1 : ∀ x ∈ st.T, x ∈ commitT (fm d) st.T
                  ((r0 :: rest.take (bz r0.g - 1)).map phf_key.k) := by
                intro x hx
                exact (commitT_mem _ _ _ _).mpr (Or.inl hx)
              have hgval : st'.g.getD r0.g 0 = d % 2 ^ 32 := by
                have := i3 r0.g (fun rec hrec => hb2 rec hrec)
                rw [this]
                exact getD_set_self _ (hglen r0 (List.mem_cons_self _ _))
              have hslot : ∀ rec ∈ r0 :: rest.take (bz r0.g - 1),
                  fm (st'.g.getD rec.g 0) rec.k = fm d rec.k := by
                intro rec hrec
                rw [hb1 rec hrec, hgval, hfm]
              have hmemsplit : ∀ rec ∈ r0 :: rest,
                  rec ∈ r0 :: rest.take (bz r0.g - 1) ∨
                    rec ∈ rest.drop (bz r0.g - 1) := by
                intro rec hrec
                rw [hb3] at hrec
                exact List.mem_append.mp hrec
              have hinT1 : ∀ rec ∈ r0 :: rest.take (bz r0.g - 1),
                  fm d rec.k ∈ commitT (fm d) st.T
                    ((r0 :: rest.take (bz r0.g - 1)).map phf_key.k) := by
                intro rec hrec
                exact (commitT_mem _ _ _ _).mpr
                  (Or.inr ⟨rec.k, List.mem_map_of_mem _ hrec, rfl⟩)
              refine ⟨?_, ?_, ?_, ?_, ?_⟩
              · intro x hx
                exact i1 x (hsubT1 x hx)
              · rw [i2, List.length_set]
              · intro b hnb
                have h3 := i3 b (fun rec hrec => hnb rec (hmemrem rec hrec))
                rw [h3]
                exact getD_set_ne _ (hnb r0 (List.mem_cons_self _ _))
              · intro rec hrec
                rcases hmemsplit rec hrec with hbk | hdr
                · rw [hslot rec hbk]
                  refine ⟨i1 _ (hinT1 rec hbk), ?_⟩
                  exact hfresh rec.k (List.mem_map_of_mem _ hbk)
                · obtain ⟨hin, hnotin⟩ := i4 rec hdr
                  exact ⟨hin, fun hx => hnotin (hsubT1 _ hx)⟩
              · intro r1 h1 r2 hr2 hk
                rcases hmemsplit r1 h1 with hbk1 | hdr1 <;>
                  rcases hmemsplit r2 hr2 with hbk2 | hdr2
                · rw [hslot r1 hbk1, hslot r2 hbk2]
                  have hsymm : Symmetric (fun a b : K => fm d a ≠ fm d b) :=
                    fun a b hne he => hne he.symm
                  exact List.Pairwise.forall hsymm hpair
                    (List.mem_map_of_mem _ hbk1) (List.mem_map_of_mem _ hbk2) hk
                · rw [hslot r1 hbk1]
                  intro he
                  exact (i4 r2 hdr2).2 (he ▸ hinT1 r1 hbk1)
                · rw [hslot r2 hbk2]
                  intro he
                  exact (i4 r1 hdr1).2 (he.symm ▸ hinT1 r2 hbk2)
                · exact i5 r1 hdr1 r2 hdr2 hk

/-- C5 loop invariant: the placement walk keeps `T_b ⊆ T` from each
bucket's entry to the next (stale `T_b` bits from a committed trial are
exactly committed `T` bits). -/
theorem placeLoopAux_Tb {K : Type} {fm : Nat → K → Nat} {bz : Nat → Nat}
    {fuel : Nat} :
    ∀ (bound : Nat) (rem : List (phf_key K)) (st st' : PlaceState),
      placeLoopAux fm bz fuel bound rem st = some st' →
      st.Tb ⊆ st.T → st'.Tb ⊆ st'.T := by
  intro bound
  induction bound with
  | zero =>
      intro rem st st' h hsub
      match rem with
      | [] =>
          unfold placeLoopAux at h
          cases h
          exact hsub
      | r0 :: rest =>
          unfold placeLoopAux at h
          cases h
  | succ bound ih =>
      intro rem st st' h hsub
      match rem with
      | [] =>
          unfold placeLoopAux at h
          cases h
          exact hsub
      | r0 :: rest =>
          rw [placeLoopAux_cons] at h
          split at h
          · cases h
            exact hsub
          · rcases hbs : bucketSearch fm st.T
                ((r0 :: rest.take (bz r0.g - 1)).map phf_key.k) fuel 0 st.Tb
              with _ | ⟨d, Tb1⟩
            · rw [hbs] at h
              exact Option.noConfusion h
            · rw [hbs] at h
              have h2 : placeLoopAux fm bz fuel bound (rest.drop (bz r0.g - 1))
                  ⟨commitT (fm d) st.T
                     ((r0 :: rest.take (bz r0.g - 1)).map phf_key.k),
                   Tb1, st.g.set r0.g (d % 2 ^ 32), max d st.d_max⟩ = some st' := h
              refine ih _ _ _ h2 ?_
              intro x hx
              rcases bucketSearch_ok2 hsub hbs x hx with hT | ⟨k2, hk2, he⟩
              · exact (commitT_mem _ _ _ _).mpr (Or.inl hT)
              · exact (commitT_mem _ _ _ _).mpr (Or.inr ⟨k2, hk2, he⟩)

/-- Every displacement the walk stores is the `uint32_t` image of a found
displacement, stays `≤ d_max`, and `d_max` only grows. -/
theorem placeLoopAux_entries {K : Type} {fm : Nat → K → Nat} {bz : Nat → Nat}
    {fuel : Nat} :
    ∀ (bound : Nat) (rem : List (phf_key K)) (st st' : PlaceState),
      placeLoopAux fm bz fuel bound rem st = some st' →
      (∀ e ∈ st.g, e ≤ st.d_max ∧ e < 2 ^ 32) →
      st.d_max ≤ st'.d_max ∧ (∀ e ∈ st'.g, e ≤ st'.d_max ∧ e < 2 ^ 32) := by
  intro bound
  induction bound with
  | zero =>
      intro rem st st' h hent
      match rem with
      | [] =>
          unfold placeLoopAux at h
          cases h
          exact ⟨Nat.le_refl _, hent⟩
      | r0 :: rest =>
          unfold placeLoopAux at h
          cases h
  | succ bound ih =>
      intro rem st st' h hent
      match rem with
      | [] =>
          unfold placeLoopAux at h
          cases h
          exact ⟨Nat.le_refl _, hent⟩
      | r0 :: rest =>
          rw [placeLoopAux_cons] at h
          split at h
          · cases h
            exact ⟨Nat.le_refl _, hent⟩
          · rcases hbs : bucketSearch fm st.T
                ((r0 :: rest.take (bz r0.g - 1)).map phf_key.k) fuel 0 st.Tb
              with _ | ⟨d, Tb1⟩
            · rw [hbs] at h
              exact Option.noConfusion h
            · rw [hbs] at h
              have h2 : placeLoopAux fm bz fuel bound (rest.drop (bz r0.g - 1))
                  ⟨commitT (fm d) st.T
                     ((r0 :: rest.take (bz r0.g - 1)).map phf_key.k),
                   Tb1, st.g.set r0.g (d % 2 ^ 32), max d st.d_max⟩ = some st' := h
              have hent1 : ∀ e ∈ st.g.set r0.g (d % 2 ^ 32),
                  e ≤ max d st.d_max ∧ e < 2 ^ 32 := by
                intro e he
                rcases List.mem_or_eq_of_mem_set he with hin | rfl
                · obtain ⟨h1, h2⟩ := hent e hin
                  exact ⟨Nat.le_trans h1 (Nat.le_max_right _ _), h2⟩
                · refine ⟨Nat.le_trans (Nat.mod_le _ _) (Nat.le_max_left _ _), ?_⟩
                  exact Nat.mod_lt _ (by norm_num)
              obtain ⟨hd, hg⟩ := ih _ _ _ h2 hent1
              exact ⟨Nat.le_trans (Nat.le_max_right _ _) hd, hg⟩

/-! ### Unpacking a successful `phf_init` -/

theorem phf_init_ok_elim {K : Type} [DecidableEq K] {feed : K → Nat → Nat}
    {nodiv : Bool} {ks : List K} {l a seed fuel : Nat} {phf : Phf K}
    (h : phf_init feed nodiv ks l a seed fuel = .ok phf) :
    ∃ sorted st,
      sortRecs
        (phf_key.cmp (phf_bz (phf_recs feed nodiv ks (seed % 2 ^ 32)
          (phf_init_r nodiv ks.length l))))
        (phf_recs feed nodiv ks (seed % 2 ^ 32) (phf_init_r nodiv ks.length l))
        = .ok sorted ∧
      placeLoop
        (fun d k => phf_f_mod_m feed nodiv d k (seed % 2 ^ 32)
          (phf_init_m nodiv ks.length a))
        (phf_bz (phf_recs feed nodiv ks (seed % 2 ^ 32)
          (phf_init_r nodiv ks.length l)))
        fuel sorted
        ⟨∅, ∅, List.replicate (phf_init_r nodiv ks.length l) 0, 0⟩ = some st ∧
      phf = ⟨nodiv, seed % 2 ^ 32, phf_init_r nodiv ks.length l,
        phf_init_m nodiv ks.length a, st.g, st.d_max⟩ := by
  unfold phf_init at h
  dsimp only at h
  rcases hs : sortRecs
      (phf_key.cmp (phf_bz (phf_recs feed nodiv ks (seed % 2 ^ 32)
        (phf_init_r nodiv ks.length l))))
      (phf_recs feed nodiv ks (seed % 2 ^ 32) (phf_init_r nodiv ks.length l))
    with e | sorted
  · rw [hs] at h
    cases h
  · rw [hs] at h
    dsimp only at h
    rcases hp : placeLoop
        (fun d k => phf_f_mod_m feed nodiv d k (seed % 2 ^ 32)
          (phf_init_m nodiv ks.length a))
        (phf_bz (phf_recs feed nodiv ks (seed % 2 ^ 32)
          (phf_init_r nodiv ks.length l)))
        fuel sorted
        ⟨∅, ∅, List.replicate (phf_init_r nodiv ks.length l) 0, 0⟩
      with _ | st
    · rw [hp] at h
      cases h
    · rw [hp] at h
      cases h
      exact ⟨sorted, st, rfl, hp, rfl⟩

theorem phf_init_r_pos {nodiv : Bool} {n l : Nat} (hn : n ≤ 2 ^ 40)
    (hl : l ≤ 2 ^ 40) : 0 < phf_init_r nodiv n l := by
  unfold phf_init_r
  have hn1 : 1 ≤ max n 1 := Nat.le_max_right _ _
  have hn2 : max n 1 ≤ 2 ^ 40 := by
    have : (1:Nat) ≤ 2 ^ 40 := by norm_num
    omega
  have hl1 : 1 ≤ max l 1 := Nat.le_max_right _ _
  have hl2 : max l 1 ≤ 2 ^ 40 := by
    have : (1:Nat) ≤ 2 ^ 40 := by norm_num
    omega
  split
  · apply phf_powerup_pos
    · rw [Nat.one_le_div_iff (by omega)]
      exact Nat.min_le_right _ _
    · calc max n 1 / min (max l 1) (max n 1) ≤ max n 1 := Nat.div_le_self _ _
        _ ≤ 2 ^ 63 := by omega
  · have hmod : (max n 1 + (max l 1 - 1)) % 2 ^ 64 = max n 1 + (max l 1 - 1) := by
      apply Nat.mod_eq_of_lt
      have : (2:Nat) ^ 40 + 2 ^ 40 < 2 ^ 64 := by norm_num
      omega
    rw [hmod]
    have h1 : 1 ≤ (max n 1 + (max l 1 - 1)) / max l 1 := by
      rw [Nat.one_le_div_iff (by omega)]
      omega
    omega

theorem phf_init_m_pos {nodiv : Bool} {n a : Nat} (hn : n ≤ 2 ^ 40) :
    0 < phf_init_m nodiv n a := by
  unfold phf_init_m
  have hn1 : 1 ≤ max n 1 := Nat.le_max_right _ _
  have hn2 : max n 1 ≤ 2 ^ 40 := by
    have : (1:Nat) ≤ 2 ^ 40 := by norm_num
    omega
  have ha1 : 1 ≤ max (min a 100) 1 := Nat.le_max_right _ _
  have ha2 : max (min a 100) 1 ≤ 100 := by omega
  have hmod : (max n 1 * 100) % 2 ^ 64 = max n 1 * 100 := by
    apply Nat.mod_eq_of_lt
    have h1 : max n 1 * 100 ≤ 2 ^ 40 * 100 := Nat.mul_le_mul_right _ hn2
    have h2 : (2:Nat) ^ 40 * 100 < 2 ^ 64 := by norm_num
    omega
  have hdiv : 1 ≤ max n 1 * 100 / max (min a 100) 1 := by
    rw [Nat.one_le_div_iff (by omega)]
    calc max (min a 100) 1 ≤ 100 := ha2
      _ ≤ max n 1 * 100 := by omega
  have hub : max n 1 * 100 / max (min a 100) 1 ≤ 2 ^ 63 := by
    calc max n 1 * 100 / max (min a 100) 1 ≤ max n 1 * 100 := Nat.div_le_self _ _
      _ ≤ 2 ^ 40 * 100 := Nat.mul_le_mul_right _ hn2
      _ ≤ 2 ^ 63 := by norm_num
  split
  · rw [hmod]
    exact phf_powerup_pos hdiv hub
  · rw [hmod]
    omega

/-- The evaluator always lands in `[0, m)` when `m > 0`, whatever the key. -/
theorem phf_hash_lt {K : Type} (feed : K → Nat → Nat) (phf : Phf K) (k : K)
    (hm : 0 < phf.m) : phf_hash feed phf k < phf.m := by
  unfold phf_hash phf_f_mod_m
  exact modReduce_lt _ _ hm

/-- C1: on any build input whose distinct keys `phf_init` successfully
places (any key type, sizes within the physically reachable range where
the `size_t` arithmetic cannot wrap), the evaluator is injective across
the build keys and every hash lies in `[0, m)` — each key is sent to
exactly the slot the construction committed for it. -/
theorem claim_C1 {K : Type} [DecidableEq K] (feed : K → Nat → Nat)
    (nodiv : Bool) (ks : List K) (l a seed fuel : Nat) (phf : Phf K)
    (hn : ks.length ≤ 2 ^ 40) (hl : l ≤ 2 ^ 40)
    (h : phf_init feed nodiv ks l a seed fuel = .ok phf) :
    (∀ k ∈ ks, phf_hash feed phf k < phf.m) ∧
    (∀ k1 ∈ ks, ∀ k2 ∈ ks, k1 ≠ k2 →
      phf_hash feed phf k1 ≠ phf_hash feed phf k2) := by
  obtain ⟨sorted, st, hs, hp, hphf⟩ := phf_init_ok_elim h
  subst hphf
  have hRpos : 0 < phf_init_r nodiv ks.length l := phf_init_r_pos hn hl
  have hMpos : 0 < phf_init_m nodiv ks.length a := phf_init_m_pos hn
  refine ⟨?_, ?_⟩
  · intro k _
    exact phf_hash_lt feed _ k hMpos
  · unfold placeLoop at hp
    have hfm : ∀ d k, phf_f_mod_m feed nodiv (d % 2 ^ 32) k (seed % 2 ^ 32)
        (phf_init_m nodiv ks.length a)
        = phf_f_mod_m feed nodiv d k (seed % 2 ^ 32)
          (phf_init_m nodiv ks.length a) :=
      fun d k => phf_f_mod feed nodiv d k _ _
    have hperm := sortRecs_perm hs
    have hsorted := sortRecs_sorted hs
    have hcount : ∀ rec ∈ sorted,
        (sorted.filter (fun rc => rc.g = rec.g)).length
          = phf_bz (phf_recs feed nodiv ks (seed % 2 ^ 32)
              (phf_init_r nodiv ks.length l)) rec.g := by
      intro rec _
      unfold phf_bz
      exact (hperm.filter _).length_eq
    have hglen : ∀ rec ∈ sorted,
        rec.g < (List.replicate (phf_init_r nodiv ks.length l) (0:Nat)).length := by
      intro rec hrec
      rw [List.length_replicate]
      have hrec2 : rec ∈ phf_recs feed nodiv ks (seed % 2 ^ 32)
          (phf_init_r nodiv ks.length l) := hperm.mem_iff.mp hrec
      obtain ⟨k, _, rfl⟩ := List.mem_map.mp hrec2
      exact modReduce_lt _ _ hRpos
    obtain ⟨p1, p2, p3, p4, p5⟩ :=
      placeLoopAux_spec hfm sorted.length sorted _ st hp hsorted hcount hglen
    intro k1 hk1 k2 hk2 hne
    have hm1 : phf_key.mk k1 (phf_g_mod_r feed nodiv k1 (seed % 2 ^ 32)
        (phf_init_r nodiv ks.length l)) ∈ sorted := by
      refine hperm.mem_iff.mpr ?_
      exact List.mem_map_of_mem _ hk1
    have hm2 : phf_key.mk k2 (phf_g_mod_r feed nodiv k2 (seed % 2 ^ 32)
        (phf_init_r nodiv ks.length l)) ∈ sorted := by
      refine hperm.mem_iff.mpr ?_
      exact List.mem_map_of_mem _ hk2
    have := p5 _ hm1 _ hm2 hne
    exact this

/-- Witness for C1 at the 3-key build `[0,1,2]`, `λ=4`, `α=80`, seed 0. -/
theorem claim_C1_witness :
    phf_hash feed32 (Phf.mk false 0 1 3 [2] 2 : Phf Nat) 0
        < (Phf.mk false 0 1 3 [2] 2 : Phf Nat).m ∧
    phf_hash feed32 (Phf.mk false 0 1 3 [2] 2 : Phf Nat) 0
      ≠ phf_hash feed32 (Phf.mk false 0 1 3 [2] 2 : Phf Nat) 1 := by
  have hc := claim_C1 feed32 false [0, 1, 2] 4 80 0 1000 (Phf.mk false 0 1 3 [2] 2)
    (by decide) (by decide) (by decide)
  exact ⟨hc.1 0 (by decide), hc.2 0 (by decide) 1 (by decide) (by decide)⟩

/-- The placement walk never changes the length of the displacement map. -/
theorem placeLoopAux_glen {K : Type} {fm : Nat → K → Nat} {bz : Nat → Nat}
    {fuel : Nat} :
    ∀ (bound : Nat) (rem : List (phf_key K)) (st st' : PlaceState),
      placeLoopAux fm bz fuel bound rem st = some st' →
      st'.g.length = st.g.length := by
  intro bound
  induction bound with
  | zero =>
      intro rem st st' h
      match rem with
      | [] =>
          unfold placeLoopAux at h
          cases h
          rfl
      | r0 :: rest =>
          unfold placeLoopAux at h
          cases h
  | succ bound ih =>
      intro rem st st' h
      match rem with
      | [] =>
          unfold placeLoopAux at h
          cases h
          rfl
      | r0 :: rest =>
          rw [placeLoopAux_cons] at h
          split at h
          · cases h
            rfl
          · rcases hbs : bucketSearch fm st.T
                ((r0 :: rest.take (bz r0.g - 1)).map phf_key.k) fuel 0 st.Tb
              with _ | ⟨d, Tb1⟩
            · rw [hbs] at h
              exact Option.noConfusion h
            · rw [hbs] at h
              have h2 : placeLoopAux fm bz fuel bound (rest.drop (bz r0.g - 1))
                  ⟨commitT (fm d) st.T
                     ((r0 :: rest.take (bz r0.g - 1)).map phf_key.k),
                   Tb1, st.g.set r0.g (d % 2 ^ 32), max d st.d_max⟩ = some st' := h
              rw [ih _ _ _ h2]
              exact List.length_set _ _ _

/-- C6: the evaluator on any successful build is total and safe: `r` and
`m` are nonzero, the displacement map has exactly `r` entries, the bucket
index is always in bounds, and the result lies in `[0, m)` for every key
of the key type — also keys never seen at build time. -/
theorem claim_C6 {K : Type} [DecidableEq K] (feed : K → Nat → Nat)
    (nodiv : Bool) (ks : List K) (l a seed fuel : Nat) (phf : Phf K)
    (hn : ks.length ≤ 2 ^ 40) (hl : l ≤ 2 ^ 40)
    (h : phf_init feed nodiv ks l a seed fuel = .ok phf) :
    0 < phf.r ∧ 0 < phf.m ∧ phf.g.length = phf.r ∧
    (∀ k : K, phf_g_mod_r feed phf.nodiv k phf.seed phf.r < phf.r ∧
      phf_hash feed phf k < phf.m) := by
  obtain ⟨sorted, st, hs, hp, hphf⟩ := phf_init_ok_elim h
  subst hphf
  have hRpos : 0 < phf_init_r nodiv ks.length l := phf_init_r_pos hn hl
  have hMpos : 0 < phf_init_m nodiv ks.length a := phf_init_m_pos hn
  refine ⟨hRpos, hMpos, ?_, ?_⟩
  · unfold placeLoop at hp
    have := placeLoopAux_glen _ _ _ _ hp
    simpa using this
  · intro k
    exact ⟨modReduce_lt _ _ hRpos, phf_hash_lt feed _ k hMpos⟩

/-- Witness for C6 at the 1-key build `[5]` and the foreign key `999`. -/
theorem claim_C6_witness :
    0 < (Phf.mk false 0 1 1 [1] 1 : Phf Nat).r ∧
    (Phf.mk false 0 1 1 [1] 1 : Phf Nat).g.length
        = (Phf.mk false 0 1 1 [1] 1 : Phf Nat).r ∧
    phf_hash feed32 (Phf.mk false 0 1 1 [1] 1 : Phf Nat) 999
      < (Phf.mk false 0 1 1 [1] 1 : Phf Nat).m := by
  have hc := claim_C6 feed32 false [5] 4 80 0 100 (Phf.mk false 0 1 1 [1] 1)
    (by decide) (by decide) (by decide)
  exact ⟨hc.1, hc.2.2.1, (hc.2.2.2 999).2⟩

/-- C2 counterexample: for 3 keys, `λ=4`, `α=80`, division mode, the code
computes `m = ⌊3·100/80⌋ = 3`, but the claimed `⌈3·100/80⌉` is `4`. -/
theorem claim_C2_counterexample :
    initM (phf_init feed32 false [0, 1, 2] 4 80 0 1000) = some 3 ∧
    (3 * 100 + 80 - 1) / 80 = 4 ∧ (3 : Nat) ≠ 4 :=
  ⟨by decide, by norm_num, by decide⟩

/-- C2 (amended): with `n1 = max(n,1)`, `l1 = max(λ,1)`,
`a1 = clamp(α,1,100)`, a successful build stores exactly
`r = ⌈n1/l1⌉` and `m = ⌊n1·100/a1⌋` (floor, not ceiling) in division
mode, and `r = powerup(⌊n1/min(l1,n1)⌋)`, `m = powerup(⌊n1·100/a1⌋)` in
`nodiv` mode; these depend only on `(n, λ, α, nodiv)` and are carried
unchanged into the returned `Phf` (the bounds keep the `size_t`
arithmetic from wrapping). -/
theorem claim_C2 {K : Type} [DecidableEq K] (feed : K → Nat → Nat)
    (nodiv : Bool) (ks : List K) (l a seed fuel : Nat) (phf : Phf K)
    (hn : ks.length ≤ 2 ^ 40) (hl : l ≤ 2 ^ 40)
    (h : phf_init feed nodiv ks l a seed fuel = .ok phf) :
    phf.nodiv = nodiv ∧
    phf.r = (if nodiv
      then phf_powerup (max ks.length 1 / min (max l 1) (max ks.length 1))
      else (max ks.length 1 + (max l 1 - 1)) / max l 1) ∧
    phf.m = (if nodiv
      then phf_powerup (max ks.length 1 * 100 / max (min a 100) 1)
      else max ks.length 1 * 100 / max (min a 100) 1) := by
  obtain ⟨sorted, st, hs, hp, hphf⟩ := phf_init_ok_elim h
  subst hphf
  have hn1 : 1 ≤ max ks.length 1 := Nat.le_max_right _ _
  have hn2 : max ks.length 1 ≤ 2 ^ 40 := by
    have : (1:Nat) ≤ 2 ^ 40 := by norm_num
    omega
  have hl1 : 1 ≤ max l 1 := Nat.le_max_right _ _
  have hl2 : max l 1 ≤ 2 ^ 40 := by
    have : (1:Nat) ≤ 2 ^ 40 := by norm_num
    omega
  have hmod1 : (max ks.length 1 + (max l 1 - 1)) % 2 ^ 64
      = max ks.length 1 + (max l 1 - 1) := by
    apply Nat.mod_eq_of_lt
    have : (2:Nat) ^ 40 + 2 ^ 40 < 2 ^ 64 := by norm_num
    omega
  have hmod2 : (max ks.length 1 * 100) % 2 ^ 64 = max ks.length 1 * 100 := by
    apply Nat.mod_eq_of_lt
    have h1 : max ks.length 1 * 100 ≤ 2 ^ 40 * 100 := Nat.mul_le_mul_right _ hn2
    have h2 : (2:Nat) ^ 40 * 100 < 2 ^ 64 := by norm_num
    omega
  refine ⟨rfl, ?_, ?_⟩
  · show phf_init_r nodiv ks.length l = _
    unfold phf_init_r
    rw [hmod1]
  · show phf_init_m nodiv ks.length a = _
    unfold phf_init_m
    rw [hmod2]

/-- Witness for C2 at the 3-key build `[0,1,2]`, `λ=4`, `α=80`. -/
theorem claim_C2_witness :
    (Phf.mk false 0 1 3 [2] 2 : Phf Nat).r = (max 3 1 + (max 4 1 - 1)) / max 4 1 ∧
    (Phf.mk false 0 1 3 [2] 2 : Phf Nat).m = max 3 1 * 100 / max (min 80 100) 1 := by
  have hc := claim_C2 feed32 false [0, 1, 2] 4 80 0 1000 (Phf.mk false 0 1 3 [2] 2)
    (by decide) (by decide) (by decide)
  exact ⟨hc.2.1, hc.2.2⟩

/-- C3 counterexample: for the S1 build (`[0,1,2,3]`, `λ=4`, `α=80`,
seed `0xdeadbeef`, `nodiv`), the output table size is not 4: the code
computes `m = powerup(4·100/80) = powerup(5) = 8`. -/
theorem claim_C3_counterexample :
    initM (phf_init feed32 true [0, 1, 2, 3] 4 80 0xdeadbeef 1000) ≠ some 4 := by
  decide

/-- C3 (amended): the S1 build succeeds with `r = 1` and `m = 8` (not 4),
and the four hashes are `[1, 4, 7, 2]` — pairwise distinct values in
`[0, 8)` (so not a permutation of `{0,1,2,3}`). -/
theorem claim_C3 :
    initR (phf_init feed32 true [0, 1, 2, 3] 4 80 0xdeadbeef 1000) = some 1 ∧
    initM (phf_init feed32 true [0, 1, 2, 3] 4 80 0xdeadbeef 1000) = some 8 ∧
    initHashes feed32 (phf_init feed32 true [0, 1, 2, 3] 4 80 0xdeadbeef 1000)
      [0, 1, 2, 3] = some [1, 4, 7, 2] ∧
    ([1, 4, 7, 2] : List Nat).Nodup ∧ (∀ x ∈ ([1, 4, 7, 2] : List Nat), x < 8) :=
  ⟨by decide, by decide, by decide, by decide, by decide⟩

/-- C5: the retry discipline of the placement loop. (i) After a failed
trial, the reset loop restores `T_b ⊆ T`: every bit the trial set is
cleared. (ii) A successful search leaves in `T_b` only committed `T`
bits plus the successful trial's own slots. (iii) The walk therefore
preserves `T_b ⊆ T` — at the start of every trial no `T_b` bit lies
outside the bits already committed in `T`. -/
theorem claim_C5 {K : Type} :
    (∀ (fm1 : K → Nat) (T Tb Tb' : Finset Nat) (bucket : List K),
      Tb ⊆ T → trialPass fm1 T Tb bucket = (Tb', false) →
      clearTb fm1 Tb' bucket ⊆ T) ∧
    (∀ (fm : Nat → K → Nat) (T : Finset Nat) (bucket : List K) (fuel d0 : Nat)
        (Tb : Finset Nat) (d : Nat) (Tb' : Finset Nat),
      Tb ⊆ T → bucketSearch fm T bucket fuel d0 Tb = some (d, Tb') →
      ∀ x ∈ Tb', x ∈ T ∨ ∃ k ∈ bucket, fm d k = x) ∧
    (∀ (fm : Nat → K → Nat) (bz : Nat → Nat) (fuel bound : Nat)
        (rem : List (phf_key K)) (st st' : PlaceState),
      placeLoopAux fm bz fuel bound rem st = some st' →
      st.Tb ⊆ st.T → st'.Tb ⊆ st'.T) :=
  ⟨fun _ _ _ _ _ hsub ht => clearTb_reset hsub ht,
   fun _ _ _ _ _ _ _ _ hsub h => bucketSearch_ok2 hsub h,
   fun _ _ _ bound rem st st' h hsub => placeLoopAux_Tb bound rem st st' h hsub⟩

/-- Witness for C5 at tiny concrete bitmap states. -/
theorem claim_C5_witness :
    clearTb (fun k => k) (∅ : Finset Nat) [0] ⊆ ({0} : Finset Nat) ∧
    ((5:Nat) ∈ (∅ : Finset Nat) ∨ ∃ k ∈ ([5] : List Nat), k = 5) ∧
    (PlaceState.mk ∅ ∅ [] 0).Tb ⊆ (PlaceState.mk ∅ ∅ [] 0).T := by
  refine ⟨?_, ?_, ?_⟩
  · exact (claim_C5 (K := Nat)).1 (fun k => k) {0} ∅ ∅ [0] (by decide) (by decide)
  · exact (claim_C5 (K := Nat)).2.1 (fun _ k => k) ∅ [5] 1 0 ∅ 1 {5}
      (by decide) (by decide) 5 (by decide)
  · exact (claim_C5 (K := Nat)).2.2 (fun _ k => k) (fun _ => 0) 0 0 []
      (PlaceState.mk ∅ ∅ [] 0) (PlaceState.mk ∅ ∅ [] 0) rfl (by decide)

/-- C7 counterexample: with zero keys but `α = 50` the table size is
`m = ⌊100/50⌋ = 2` and evaluating key 3 yields 1, not 0 — "every
subsequent evaluation returns 0" does not hold for all parameters. -/
theorem claim_C7_counterexample :
    initHashOf feed32 (phf_init feed32 false ([] : List Nat) 4 50 0 0) 3
      ≠ some 0 := by
  decide

/-- C7 (amended): building with `n = 0` keys is valid for every
parameter choice — `phf_init` succeeds (for any fuel) with an all-zero
displacement map and `d_max = 0`; and with the S2 parameters
(`λ=4`, `α=80`, seed 0, no `nodiv`) the table size is 1, so every
subsequent evaluation — `hash(0)` in particular — returns 0. -/
theorem claim_C7 :
    (∀ (K : Type) (i : DecidableEq K) (feed : K → Nat → Nat) (nodiv : Bool)
        (l a seed fuel : Nat),
      @phf_init K i feed nodiv [] l a seed fuel =
        .ok ⟨nodiv, seed % 2 ^ 32, phf_init_r nodiv 0 l, phf_init_m nodiv 0 a,
          List.replicate (phf_init_r nodiv 0 l) 0, 0⟩) ∧
    (∀ k : Nat,
      initHashOf feed32 (phf_init feed32 false ([] : List Nat) 4 80 0 0) k
        = some 0) := by
  constructor
  · intro K i feed nodiv l a seed fuel
    rfl
  · intro k
    have hinit : phf_init feed32 false ([] : List Nat) 4 80 0 0
        = .ok ⟨false, 0, 1, 1, [0], 0⟩ := by decide
    rw [hinit]
    show some (phf_hash feed32 ⟨false, 0, 1, 1, [0], 0⟩ k) = some 0
    unfold phf_hash phf_f_mod_m modReduce
    simp [Nat.mod_one]

/-- C8: duplicate keys are fatal. Two records that tie on bucket size
and bucket index and carry equal keys drive the comparator into
`assert`/`abort`; consequently, for any input list containing two equal
keys, `phf_init` aborts during the sort — it never silently dedupes and
never returns a `Phf`. -/
theorem claim_C8 {K : Type} [DecidableEq K] (feed : K → Nat → Nat)
    (nodiv : Bool) (ks : List K) (l a seed fuel : Nat) (hdup : ¬ks.Nodup) :
    phf_init feed nodiv ks l a seed fuel = .dupAbort ∧
    (∀ phf, phf_init feed nodiv ks l a seed fuel ≠ .ok phf) ∧
    (∀ (bz : Nat → Nat) (x y : phf_key K), bz x.g = bz y.g → x.g = y.g →
      x.k = y.k → phf_key.cmp bz x y = .error ()) := by
  have hmain : phf_init feed nodiv ks l a seed fuel = .dupAbort := by
    unfold phf_init
    dsimp only
    rcases hs : sortRecs
        (phf_key.cmp (phf_bz (phf_recs feed nodiv ks (seed % 2 ^ 32)
          (phf_init_r nodiv ks.length l))))
        (phf_recs feed nodiv ks (seed % 2 ^ 32) (phf_init_r nodiv ks.length l))
      with e | sorted
    · rfl
    · exfalso
      have hnd := sortRecs_nodup hs
      unfold phf_recs at hnd
      exact hdup (List.Nodup.of_map _ hnd)
  refine ⟨hmain, ?_, ?_⟩
  · intro phf hok
    rw [hmain] at hok
    cases hok
  · intro bz x y h1 h2 h3
    unfold phf_key.cmp
    rw [if_neg (by omega), if_neg (by omega), if_neg (by omega),
      if_neg (by omega), if_pos h3]

/-- Witness for C8 at the S5 input `[0u32, 0]`. -/
theorem claim_C8_witness :
    phf_init feed32 true [(0:Nat), 0] 4 80 123 5 = .dupAbort :=
  (claim_C8 feed32 true [0, 0] 4 80 123 5 (by decide)).1

/-! ### C10: the dedup helper (spec-modelled) -/

/-- Modelled from the spec: the key-array helper `uniq` (§4.7, §6) is
part of this repository but not under `src/` (only `phf.cc` is); the
spec specifies it as: given a key array, keep only the first occurrence
of each key, in original order, and return the new logical length.
Equality on byte-slice keys (length, then byte-wise) is the `DecidableEq`
of `List Nat` at `K := List Nat`. -/
def phf_uniq {K : Type} [DecidableEq K] : List K → List K
  | [] => []
  | k :: ks => k :: phf_uniq (ks.filter (fun x => x ≠ k))
termination_by l => l.length
decreasing_by
  exact Nat.lt_succ_of_le (List.length_filter_le _ _)

/-- Modelled from the spec: the logical length `uniq` returns. -/
def phf_uniq_len {K : Type} [DecidableEq K] (ks : List K) : Nat :=
  (phf_uniq ks).length

theorem phf_uniq_sublist {K : Type} [DecidableEq K] :
    ∀ ks : List K, (phf_uniq ks).Sublist ks
  | [] => by
      rw [phf_uniq]
  | k :: ks => by
      rw [phf_uniq]
      exact List.Sublist.cons₂ k
        ((phf_uniq_sublist _).trans (List.filter_sublist ks))
termination_by ks => ks.length
decreasing_by
  exact Nat.lt_succ_of_le (List.length_filter_le _ _)

theorem phf_uniq_mem {K : Type} [DecidableEq K] :
    ∀ ks : List K, ∀ x ∈ ks, x ∈ phf_uniq ks
  | k :: ks, x, hx => by
      rw [phf_uniq]
      rcases List.mem_cons.mp hx with rfl | hx2
      · exact List.mem_cons_self _ _
      · by_cases hxk : x = k
        · subst hxk
          exact List.mem_cons_self _ _
        · refine List.mem_cons_of_mem _ ?_
          exact phf_uniq_mem _ x (List.mem_filter.mpr ⟨hx2, by simpa using hxk⟩)
termination_by ks => ks.length
decreasing_by
  exact Nat.lt_succ_of_le (List.length_filter_le _ _)

theorem phf_uniq_nodup {K : Type} [DecidableEq K] :
    ∀ ks : List K, (phf_uniq ks).Nodup
  | [] => by
      rw [phf_uniq]
      exact List.nodup_nil
  | k :: ks => by
      rw [phf_uniq]
      refine List.nodup_cons.mpr ⟨?_, phf_uniq_nodup _⟩
      intro hmem
      have := (phf_uniq_sublist _).subset hmem
      have := (List.mem_filter.mp this).2
      simp at this
termination_by ks => ks.length
decreasing_by
  exact Nat.lt_succ_of_le (List.length_filter_le _ _)

/-- C10: `uniq` keeps a subsequence of the input (first occurrences, in
original order), without duplicates, containing exactly the input's
keys, and its logical length is at most `n`; on `[a,b,a,c,b]` with
distinct `a`, `b`, `c` it yields `[a,b,c]`. -/
theorem claim_C10 {K : Type} [DecidableEq K] :
    (∀ ks : List K, phf_uniq_len ks ≤ ks.length) ∧
    (∀ ks : List K, (phf_uniq ks).Sublist ks) ∧
    (∀ ks : List K, (phf_uniq ks).Nodup) ∧
    (∀ ks : List K, ∀ x, x ∈ phf_uniq ks ↔ x ∈ ks) ∧
    (∀ a b c : K, a ≠ b → a ≠ c → b ≠ c →
      phf_uniq [a, b, a, c, b] = [a, b, c]) := by
  refine ⟨?_, phf_uniq_sublist, phf_uniq_nodup, ?_, ?_⟩
  · intro ks
    exact (phf_uniq_sublist ks).length_le
  · intro ks x
    exact ⟨fun h => (phf_uniq_sublist ks).subset h, fun h => phf_uniq_mem ks x h⟩
  · intro a b c hab hac hbc
    have hba : ¬b = a := fun h => hab h.symm
    have hca : ¬c = a := fun h => hac h.symm
    have hcb : ¬c = b := fun h => hbc h.symm
    rw [phf_uniq]
    rw [show ([b, a, c, b].filter (fun x => x ≠ a)) = [b, c, b] by
      simp [List.filter, hba, hca]]
    rw [phf_uniq]
    rw [show ([c, b].filter (fun x => x ≠ b)) = [c] by simp [List.filter, hcb]]
    rw [phf_uniq]
    rw [show ([] : List K).filter (fun x => x ≠ c) = [] by simp]
    rw [phf_uniq]

/-- Witness for C10 at byte-slice keys (`List Nat`, compared by length
then byte-wise). -/
theorem claim_C10_witness :
    phf_uniq [[97], [98, 99], [97], ([] : List Nat), [98, 99]]
      = [[97], [98, 99], []] :=
  (claim_C10 (K := List Nat)).2.2.2.2 [97] [98, 99] []
    (by decide) (by decide) (by decide)

/-! ### C9: the compactor (spec-modelled) -/

/-- Little-endian byte decomposition of one packed entry into `nb` bytes. -/
def leBytes : Nat → Nat → List Nat
  | 0, _ => []
  | nb + 1, x => (x % 256) :: leBytes nb (x / 256)

/-- Value of a little-endian byte sequence. -/
def fromLE : List Nat → Nat
  | [] => 0
  | b :: bs => b + 256 * fromLE bs

/-- Pack a list of entries as a dense byte stream, `nb` bytes each. -/
def encodeEntries (nb : Nat) : List Nat → List Nat
  | [] => []
  | e :: es => leBytes nb e ++ encodeEntries nb es

/-- Read `cnt` entries of `nb` bytes each back out of a byte stream. -/
def decodeEntries (nb : Nat) : Nat → List Nat → List Nat
  | 0, _ => []
  | cnt + 1, bs => fromLE (bs.take nb) :: decodeEntries nb cnt (bs.drop nb)

/-- Modelled from the spec: the compactor `phf_compact` (§4.6) is part
of this repository but not under `src/` (only `phf.cc` is).  The spec
describes the displacement map after (optional) compaction as a densely
packed, byte-aligned, little-endian stream of `g_op`-bit entries, with
`g_op ∈ {8,16,32}` (implied 32 before compaction).  `PhfPacked` is the
`Phf` with its `g` array in that representation. -/
structure PhfPacked (K : Type) where
  nodiv : Bool
  seed : Nat
  r : Nat
  m : Nat
  bytes : List Nat
  g_op : Nat
  d_max : Nat

/-- A freshly built `Phf` viewed as packed: `uint32_t` entries, `g_op = 32`. -/
def phf_pack {K : Type} (phf : Phf K) : PhfPacked K :=
  ⟨phf.nodiv, phf.seed, phf.r, phf.m, encodeEntries 4 phf.g, 32, phf.d_max⟩

/-- Modelled from the spec: `compact` (§4.6) — determine the minimum
width `w ∈ {8,16,32}` with `d_max < 2^w`, then repack `g` in place as a
densely packed array of `w`-bit entries and update `g_op`. -/
def phf_compact {K : Type} (p : PhfPacked K) : PhfPacked K :=
  let w := if p.d_max < 2 ^ 8 then 8 else if p.d_max < 2 ^ 16 then 16 else 32
  { p with
    bytes := encodeEntries (w / 8) (decodeEntries (p.g_op / 8) p.r p.bytes),
    g_op := w }

/-- Displacement entry `i` of a packed map, read at the current width. -/
def phf_entry {K : Type} (p : PhfPacked K) (i : Nat) : Nat :=
  fromLE ((p.bytes.drop (i * (p.g_op / 8))).take (p.g_op / 8))

/-- The evaluator over the packed representation: identical to
`phf_hash` except that the displacement is read through `g_op`. -/
def phf_hashPacked {K : Type} (feed : K → Nat → Nat) (p : PhfPacked K)
    (k : K) : Nat :=
  phf_f_mod_m feed p.nodiv (phf_entry p (phf_g_mod_r feed p.nodiv k p.seed p.r))
    k p.seed p.m

theorem length_leBytes : ∀ (nb x : Nat), (leBytes nb x).length = nb
  | 0, _ => rfl
  | nb + 1, x => by
      rw [leBytes]
      simp [length_leBytes nb]

theorem fromLE_leBytes : ∀ (nb x : Nat), fromLE (leBytes nb x) = x % 256 ^ nb
  | 0, x => by
      rw [leBytes, fromLE]
      simp [Nat.mod_one]
  | nb + 1, x => by
      rw [leBytes, fromLE, fromLE_leBytes nb]
      rw [pow_succ']
      rw [Nat.mod_mul]

theorem decode_encode {nb : Nat} :
    ∀ (es : List Nat), (∀ e ∈ es, e < 256 ^ nb) →
      decodeEntries nb es.length (encodeEntries nb es) = es
  | [], _ => rfl
  | e :: es, hb => by
      rw [encodeEntries, List.length_cons, decodeEntries]
      have htake : (leBytes nb e ++ encodeEntries nb es).take nb = leBytes nb e :=
        List.take_left' (length_leBytes nb e)
      have hdrop : (leBytes nb e ++ encodeEntries nb es).drop nb
          = encodeEntries nb es :=
        List.drop_left' (length_leBytes nb e)
      rw [htake, hdrop, fromLE_leBytes,
        Nat.mod_eq_of_lt (hb e (List.mem_cons_self _ _)),
        decode_encode es (fun x hx => hb x (List.mem_cons_of_mem _ hx))]

theorem length_decodeEntries {nb : Nat} :
    ∀ (cnt : Nat) (bs : List Nat), (decodeEntries nb cnt bs).length = cnt
  | 0, _ => rfl
  | cnt + 1, bs => by
      rw [decodeEntries]
      simp [length_decodeEntries cnt]

theorem entry_encode {nb : Nat} :
    ∀ (es : List Nat) (i : Nat), i < es.length → (∀ e ∈ es, e < 256 ^ nb) →
      fromLE (((encodeEntries nb es).drop (i * nb)).take nb) = es.getD i 0
  | [], i, hi, _ => by cases hi
  | e :: es, 0, _, hb => by
      rw [encodeEntries]
      simp only [Nat.zero_mul, List.drop_zero]
      have htake : (leBytes nb e ++ encodeEntries nb es).take nb = leBytes nb e :=
        List.take_left' (length_leBytes nb e)
      rw [htake, fromLE_leBytes, Nat.mod_eq_of_lt (hb e (List.mem_cons_self _ _))]
      rfl
  | e :: es, i + 1, hi, hb => by
      rw [encodeEntries]
      have hdrop : (leBytes nb e ++ encodeEntries nb es).drop ((i + 1) * nb)
          = (encodeEntries nb es).drop (i * nb) := by
        have h1 : (i + 1) * nb = nb + i * nb := by ring
        rw [h1, ← List.drop_drop]
        congr 1
        exact List.drop_left' (length_leBytes nb e)
      rw [hdrop, entry_encode es i (by simpa using hi)
        (fun x hx => hb x (List.mem_cons_of_mem _ hx))]
      rfl

theorem compact_pack_eq {K : Type} (phf : Phf K) (hr : phf.g.length = phf.r)
    (hent : ∀ e ∈ phf.g, e < 2 ^ 32) :
    phf_compact (phf_pack phf)
      = ⟨phf.nodiv, phf.seed, phf.r, phf.m,
         encodeEntries ((if phf.d_max < 2 ^ 8 then 8
            else if phf.d_max < 2 ^ 16 then 16 else 32) / 8) phf.g,
         (if phf.d_max < 2 ^ 8 then 8
            else if phf.d_max < 2 ^ 16 then 16 else 32), phf.d_max⟩ := by
  unfold phf_compact phf_pack
  dsimp only
  have hes : decodeEntries (32 / 8) phf.r (encodeEntries 4 phf.g) = phf.g := by
    rw [← hr]
    have h4 : (32:Nat) / 8 = 4 := by norm_num
    rw [h4]
    apply decode_encode
    intro e he
    have h256 : (256:Nat) ^ 4 = 2 ^ 32 := by norm_num
    rw [h256]
    exact hent e he
  rw [hes]

theorem entries_width_bound {K : Type} (phf : Phf K)
    (hent : ∀ e ∈ phf.g, e ≤ phf.d_max ∧ e < 2 ^ 32) :
    ∀ e ∈ phf.g, e < 256 ^ ((if phf.d_max < 2 ^ 8 then 8
      else if phf.d_max < 2 ^ 16 then 16 else 32) / 8) := by
  intro e he
  obtain ⟨h1, h2⟩ := hent e he
  split_ifs with h8 h16
  · norm_num
    omega
  · norm_num
    omega
  · norm_num
    omega

theorem hashPacked_eq {K : Type} (feed : K → Nat → Nat) (phf : Phf K)
    (hr : phf.g.length = phf.r)
    (hent : ∀ e ∈ phf.g, e ≤ phf.d_max ∧ e < 2 ^ 32)
    (hrpos : 0 < phf.r) (k : K) :
    phf_hashPacked feed (phf_compact (phf_pack phf)) k = phf_hash feed phf k := by
  rw [compact_pack_eq phf hr (fun e he => (hent e he).2)]
  have hi : phf_g_mod_r feed phf.nodiv k phf.seed phf.r < phf.g.length := by
    rw [hr]
    exact modReduce_lt _ _ hrpos
  unfold phf_hashPacked phf_hash phf_entry
  dsimp only
  rw [entry_encode phf.g _ hi (entries_width_bound phf hent)]

/-- C9: the compactor. (i) The chosen `g_op` is the minimum width in
`{8,16,32}` holding `d_max`. (ii) `compact` is idempotent on a packed
map whose entries fit `d_max`'s width. (iii) It is safe on an empty `g`.
(iv) It preserves evaluator semantics on every successful build: for
every key (build key or not), the packed evaluator after `compact`
returns exactly `phf_hash`. -/
theorem claim_C9 {K : Type} [DecidableEq K] :
    (∀ p : PhfPacked K,
      ((phf_compact p).g_op = 8 ∨ (phf_compact p).g_op = 16 ∨
        (phf_compact p).g_op = 32) ∧
      (p.d_max < 2 ^ 32 → p.d_max < 2 ^ (phf_compact p).g_op) ∧
      (∀ w, (w = 8 ∨ w = 16 ∨ w = 32) → p.d_max < 2 ^ w →
        (phf_compact p).g_op ≤ w)) ∧
    (∀ phf : Phf K, phf.g.length = phf.r →
      (∀ e ∈ phf.g, e ≤ phf.d_max ∧ e < 2 ^ 32) →
      phf_compact (phf_compact (phf_pack phf)) = phf_compact (phf_pack phf)) ∧
    (∀ phf : Phf K, phf.g = [] → phf.r = 0 →
      (phf_compact (phf_pack phf)).bytes = []) ∧
    (∀ (feed : K → Nat → Nat) (nodiv : Bool) (ks : List K)
        (l a seed fuel : Nat) (phf : Phf K),
      ks.length ≤ 2 ^ 40 → l ≤ 2 ^ 40 →
      phf_init feed nodiv ks l a seed fuel = .ok phf →
      ∀ k : K, phf_hashPacked feed (phf_compact (phf_pack phf)) k
        = phf_hash feed phf k) := by
  refine ⟨?_, ?_, ?_, ?_⟩
  · intro p
    unfold phf_compact
    dsimp only
    refine ⟨?_, ?_, ?_⟩
    · split_ifs <;> simp
    · intro h32
      split_ifs with h8 h16 <;> omega
    · intro w hw hdw
      rcases hw with rfl | rfl | rfl <;> split_ifs with h8 h16 <;> omega
  · intro phf hr hent
    rw [compact_pack_eq phf hr (fun e he => (hent e he).2)]
    unfold phf_compact
    dsimp only
    have hdec : decodeEntries ((if phf.d_max < 2 ^ 8 then 8
        else if phf.d_max < 2 ^ 16 then 16 else 32) / 8) phf.r
        (encodeEntries ((if phf.d_max < 2 ^ 8 then 8
          else if phf.d_max < 2 ^ 16 then 16 else 32) / 8) phf.g) = phf.g := by
      rw [← hr]
      exact decode_encode phf.g (entries_width_bound phf hent)
    rw [hdec]
  · intro phf hg hr
    rw [compact_pack_eq phf (by rw [hg, hr]; rfl) (by rw [hg]; intro e he; cases he)]
    dsimp only
    rw [hg]
    rfl
  · intro feed nodiv ks l a seed fuel phf hn hl h k
    obtain ⟨sorted, st, hs, hp, hphf⟩ := phf_init_ok_elim h
    have hRpos : 0 < phf_init_r nodiv ks.length l := phf_init_r_pos hn hl
    unfold placeLoop at hp
    have hglen := placeLoopAux_glen _ _ _ _ hp
    have hent := placeLoopAux_entries _ _ _ _ hp (by
      intro e he
      have := List.eq_of_mem_replicate he
      subst this
      exact ⟨Nat.le_refl 0, by norm_num⟩)
    subst hphf
    refine hashPacked_eq feed _ ?_ ?_ hRpos k
    · show st.g.length = phf_init_r nodiv ks.length l
      rw [hglen]
      exact List.length_replicate _ _
    · exact hent.2

/-- Witness for C9 at the 1-key build `[5]`. -/
theorem claim_C9_witness :
    phf_compact (phf_compact (phf_pack (Phf.mk false 0 1 1 [1] 1 : Phf Nat)))
      = phf_compact (phf_pack (Phf.mk false 0 1 1 [1] 1 : Phf Nat)) ∧
    phf_hashPacked feed32
        (phf_compact (phf_pack (Phf.mk false 0 1 1 [1] 1 : Phf Nat))) 7
      = phf_hash feed32 (Phf.mk false 0 1 1 [1] 1 : Phf Nat) 7 := by
  refine ⟨?_, ?_⟩
  · exact (claim_C9 (K := Nat)).2.1 (Phf.mk false 0 1 1 [1] 1)
      (by decide) (by decide)
  · exact (claim_C9 (K := Nat)).2.2.2 feed32 false [5] 4 80 0 100
      (Phf.mk false 0 1 1 [1] 1) (by decide) (by decide) (by decide) 7
